import Mathlib

/-!
Verification of the `mcc` proofreading engine against its specification.

The development shallowly embeds the JavaScript source of the repository:

* `src/docs/app.js` — range-merging progress tracker and the pinyin-aware
  search matcher of the published word list;
* `src/mcc/proofread/web/app.js` — the proofreading editor: CSV
  parsing/serialization, the column shift/offset bulk operations, and the
  session diff-and-save protocol.

JavaScript strings are modelled as `List Char` (sequences of Unicode code
points), JavaScript numbers occurring as integer row indices, passes and
deltas as `Int`, and nullable values as `Option`.
-/

/-- Convert a Lean string literal to the `List Char` model of a JS string. -/
def str (s : String) : List Char := s.data

/-! Range-Merging Progress Tracker (`src/docs/app.js`)

`normalizeRanges` receives, per pass, a JSON array whose entries are either
arrays (ranges) or numbers (singleton indices).  An entry is modelled by
`REntry`:

* `pair a b` — an array entry of length ≥ 2 holding finite numbers `a`, `b`
  (the code takes `[Number(entry[0]), Number(entry[1])]`);
* `single v` — a finite number entry `v` (normalized to `[v, v]`);
* `bad` — any entry failing both tests, e.g. a non-finite number, a
  non-number scalar, or an array of length < 2: the code pushes nothing.
-/

inductive REntry
  | pair (a b : Int)
  | single (v : Int)
  | bad
deriving DecidableEq

/-- A pair entry is well-formed when it denotes a closed interval. -/
def REntry.wf : REntry → Prop
  | .pair a b => a ≤ b
  | _ => True

instance : DecidablePred REntry.wf := fun e => by
  cases e <;> simp [REntry.wf] <;> infer_instance

/-- Function `normalizeRanges` of `src/docs/app.js` lines 589–602. -/
def normalizeRanges : List REntry → List (Int × Int)
  | [] => []
  | .pair a b :: rest => (a, b) :: normalizeRanges rest
  | .single v :: rest => (v, v) :: normalizeRanges rest
  | .bad :: rest => normalizeRanges rest

/-- The JS `ranges.sort((a, b) => a[0] - b[0])`: a stable sort ascending by
interval start (ECMAScript `Array.prototype.sort` is required to be stable;
any stable sort by the same key computes the same list, here realized by a
stable insertion sort). -/
def sortRanges (l : List (Int × Int)) : List (Int × Int) :=
  l.insertionSort (fun a b => a.1 ≤ b.1)

/-- The merging loop of `collectProofreadRanges`: `run` is the interval at
`merged[merged.length - 1]`; a subsequent interval with
`current[0] <= prev[1] + 1` is absorbed via `prev[1] = max(prev[1],
current[1])`, otherwise it is pushed and becomes the running interval. -/
def mergeLoop (run : Int × Int) : List (Int × Int) → List (Int × Int)
  | [] => [run]
  | current :: rest =>
    if current.1 ≤ run.2 + 1 then mergeLoop (run.1, max run.2 current.2) rest
    else run :: mergeLoop current rest

/-- Function `collectProofreadRanges` of `src/docs/app.js` lines 604–628.  The input
models `stats.rows.ranges_by_pass` (`none` when the stats object or the
mapping is missing): an association list from pass key to that pass's raw
range list, in the enumeration order of `Object.keys`. -/
def collectProofreadRanges
    (rangesByPass : Option (List (List Char × List REntry))) :
    Option (List (Int × Int)) :=
  match rangesByPass with
  | none => none
  | some passes =>
    let ranges := (passes.map (fun p => normalizeRanges p.2)).flatten
    if ranges.isEmpty then none
    else
      match sortRanges ranges with
      | [] => none
      | h :: t => some (mergeLoop h t)

/-! Invariant lemmas for the merge. -/

theorem normalizeRanges_wf (l : List REntry) (h : ∀ e ∈ l, e.wf) :
    ∀ x ∈ normalizeRanges l, x.1 ≤ x.2 := by
  induction l with
  | nil => simp [normalizeRanges]
  | cons e rest ih =>
    have he := h e (by simp)
    have hrest := fun e hm => h e (List.mem_cons_of_mem _ hm)
    cases e with
    | pair a b =>
      simp only [normalizeRanges, List.mem_cons]
      rintro x (rfl | hx)
      · exact he
      · exact ih hrest x hx
    | single v =>
      simp only [normalizeRanges, List.mem_cons]
      rintro x (rfl | hx)
      · exact le_refl _
      · exact ih hrest x hx
    | bad => exact ih hrest

theorem sortRanges_perm (l : List (Int × Int)) : (sortRanges l).Perm l :=
  List.perm_insertionSort _ l

theorem sortRanges_sorted (l : List (Int × Int)) :
    (sortRanges l).Pairwise (fun a b => a.1 ≤ b.1) := by
  have ht : IsTrans (Int × Int) (fun a b => a.1 ≤ b.1) :=
    ⟨fun a b c hab hbc => le_trans hab hbc⟩
  have hto : IsTotal (Int × Int) (fun a b => a.1 ≤ b.1) :=
    ⟨fun a b => le_total a.1 b.1⟩
  exact List.sorted_insertionSort _ l

/-- Core invariant of the merging fold: starting from a well-formed running
interval that lies at or before every interval of a sorted well-formed list,
the merged output consists of well-formed intervals whose starts are at least
the running start, and consecutive output intervals are separated by a gap
(`prev.end + 1 < next.start`). -/
theorem mergeLoop_spec (l : List (Int × Int)) :
    ∀ run : Int × Int, l.Pairwise (fun a b => a.1 ≤ b.1) →
    (∀ x ∈ l, run.1 ≤ x.1) → run.1 ≤ run.2 → (∀ x ∈ l, x.1 ≤ x.2) →
    (∀ q ∈ mergeLoop run l, run.1 ≤ q.1 ∧ q.1 ≤ q.2) ∧
      (mergeLoop run l).Pairwise (fun p q => p.2 + 1 < q.1) := by
  induction l with
  | nil =>
    intro run _ _ hrun _
    constructor
    · intro q hq
      simp only [mergeLoop, List.mem_singleton] at hq
      subst hq; exact ⟨le_refl _, hrun⟩
    · simp [mergeLoop]
  | cons c rest ih =>
    intro run hsorted hge hrun hwf
    have hsorted_rest : rest.Pairwise (fun a b => a.1 ≤ b.1) :=
      hsorted.of_cons
    have hc_le : ∀ x ∈ rest, c.1 ≤ x.1 := by
      intro x hx; exact (List.pairwise_cons.mp hsorted).1 x hx
    have hwf_rest : ∀ x ∈ rest, x.1 ≤ x.2 := fun x hx =>
      hwf x (List.mem_cons_of_mem _ hx)
    have hc_wf : c.1 ≤ c.2 := hwf c (by simp)
    have hrc : run.1 ≤ c.1 := hge c (by simp)
    simp only [mergeLoop]
    by_cases hmerge : c.1 ≤ run.2 + 1
    · simp only [if_pos hmerge]
      have hge2 : ∀ x ∈ rest, run.1 ≤ x.1 := fun x hx =>
        le_trans hrc (hc_le x hx)
      have hrun2 : run.1 ≤ max run.2 c.2 := le_trans hrun (le_max_left _ _)
      exact ih (run.1, max run.2 c.2) hsorted_rest hge2 hrun2 hwf_rest
    · simp only [if_neg hmerge]
      push_neg at hmerge
      obtain ⟨helem, hpair⟩ := ih c hsorted_rest hc_le hc_wf hwf_rest
      constructor
      · intro q hq
        rcases List.mem_cons.mp hq with rfl | hq
        · exact ⟨le_refl _, hrun⟩
        · obtain ⟨h1, h2⟩ := helem q hq
          exact ⟨le_trans hrc h1, h2⟩
      · refine List.pairwise_cons.mpr ⟨?_, hpair⟩
        intro q hq
        have := (helem q hq).1
        omega

/-- C1: For every mapping from pass ids to lists of (start, end) pairs or
singleton indices (every pair denoting a closed interval), the merged output
of `collectProofreadRanges` consists of closed intervals, sorted strictly
ascending by start, pairwise non-overlapping and non-adjacent: each
interval's start strictly exceeds the previous interval's end plus 1.
Merging `{1: [[1,5]], 2: [[6,10]]}` yields `[[1,10]]`. -/
theorem C1_mergeRanges_invariant
    (rbp : List (List Char × List REntry))
    (hwf : ∀ p ∈ rbp, ∀ e ∈ p.2, e.wf) :
    (∀ m, collectProofreadRanges (some rbp) = some m →
      (∀ x ∈ m, x.1 ≤ x.2) ∧
        m.Pairwise (fun p q => p.1 < q.1 ∧ p.2 + 1 < q.1)) ∧
    collectProofreadRanges
        (some [(str "1", [.pair 1 5]), (str "2", [.pair 6 10])]) =
      some [(1, 10)] := by
  constructor
  · intro m hm
    simp only [collectProofreadRanges] at hm
    set ranges := (rbp.map (fun p => normalizeRanges p.2)).flatten with hranges
    by_cases hempty : ranges.isEmpty
    · simp [hempty] at hm
    · simp only [hempty, Bool.false_eq_true, if_false] at hm
      have hwf_flat : ∀ x ∈ ranges, x.1 ≤ x.2 := by
        intro x hx
        rw [hranges] at hx
        obtain ⟨l, hl, hxl⟩ := List.mem_flatten.mp hx
        obtain ⟨p, hp, rfl⟩ := List.mem_map.mp hl
        exact normalizeRanges_wf p.2 (hwf p hp) x hxl
      have hwf_sorted : ∀ x ∈ sortRanges ranges, x.1 ≤ x.2 := by
        intro x hx
        exact hwf_flat x ((sortRanges_perm ranges).mem_iff.mp hx)
      have hsorted := sortRanges_sorted ranges
      cases hs : sortRanges ranges with
      | nil => rw [hs] at hm; exact absurd hm (by simp)
      | cons h t =>
        rw [hs] at hm
        simp only [Option.some_inj] at hm
        subst hm
        rw [hs] at hsorted hwf_sorted
        have hge : ∀ x ∈ t, h.1 ≤ x.1 :=
          (List.pairwise_cons.mp hsorted).1
        have hh_wf : h.1 ≤ h.2 := hwf_sorted h (by simp)
        have ht_wf : ∀ x ∈ t, x.1 ≤ x.2 := fun x hx =>
          hwf_sorted x (List.mem_cons_of_mem _ hx)
        obtain ⟨helem, hpair⟩ :=
          mergeLoop_spec t h hsorted.of_cons hge hh_wf ht_wf
        refine ⟨fun x hx => (helem x hx).2, ?_⟩
        have : ∀ p ∈ mergeLoop h t, ∀ q ∈ mergeLoop h t,
            p.2 + 1 < q.1 → p.1 < q.1 ∧ p.2 + 1 < q.1 := by
          intro p hp q hq hlt
          have := (helem p hp).2
          omega
        exact List.Pairwise.imp_of_mem (fun ha hb hr => this _ ha _ hb hr)
          hpair
  · rfl

/-- Closed instance of `C1_mergeRanges_invariant`: the hypotheses are
satisfied by the example input `{1: [[1,5]], 2: [[6,10]]}`, whose merged
output is `[[1,10]]` and satisfies the sortedness/gap invariant. -/
theorem C1_mergeRanges_invariant_witness :
    ((1 : Int), (10 : Int)).1 ≤ ((1 : Int), (10 : Int)).2 ∧
    collectProofreadRanges
        (some [(str "1", [.pair 1 5]), (str "2", [.pair 6 10])]) =
      some [(1, 10)] := by
  have h := C1_mergeRanges_invariant
    [(str "1", [.pair 1 5]), (str "2", [.pair 6 10])] (by decide)
  exact ⟨((h.1 [(1, 10)] h.2).1 (1, 10) (by simp)), h.2⟩

/-- C9: A malformed entry (an entry that is not a finite number and not
an array of length ≥ 2) is dropped by `normalizeRanges` rather than causing
an error: inserting such an entry anywhere in any pass's list leaves both
the normalized ranges and the final merged output of
`collectProofreadRanges` unchanged. -/
theorem C9_malformed_entry_dropped :
    (∀ pre post : List REntry,
      normalizeRanges (pre ++ .bad :: post) = normalizeRanges (pre ++ post)) ∧
    (∀ (before after : List (List Char × List REntry)) (key : List Char)
        (pre post : List REntry),
      collectProofreadRanges
          (some (before ++ (key, pre ++ .bad :: post) :: after)) =
        collectProofreadRanges (some (before ++ (key, pre ++ post) :: after))) := by
  have hnorm : ∀ pre post : List REntry,
      normalizeRanges (pre ++ .bad :: post) = normalizeRanges (pre ++ post) := by
    intro pre post
    induction pre with
    | nil => simp [normalizeRanges]
    | cons e rest ih => cases e <;> simp [normalizeRanges, ih]
  refine ⟨hnorm, ?_⟩
  intro before after key pre post
  simp only [collectProofreadRanges, List.map_append, List.map_cons, hnorm]

/-! CSV parse/serialize (`src/mcc/proofread/web/app.js` lines 910–968)

Cells and text are `List Char`.  `parseCsv` is the character state machine of
the source (`inQuotes`, `cell`, `row`, `rows`); the `text[i + 1] === '"'`
lookahead becomes a match on the tail of the character list.
-/

/-- The quoting trigger of `escapeCell`: `/[",\n\r]/`. -/
def needsQuote (c : Char) : Bool :=
  c = '\"' || c = ',' || c = '\n' || c = '\r'

/-- The JS `text.replace` doubling quotes inside `escapeCell`. -/
def escQuotes : List Char → List Char
  | [] => []
  | c :: rest =>
    if c = '\"' then '\"' :: '\"' :: escQuotes rest else c :: escQuotes rest

/-- Function `escapeCell` of `src/mcc/proofread/web/app.js` lines 953–962 (the
`null`/`undefined` branch does not arise for string cells). -/
def escapeCell (cell : List Char) : List Char :=
  if cell.any needsQuote then '\"' :: escQuotes cell ++ ['\"'] else cell

/-- The JS `Array.prototype.join(sep)`. -/
def joinSep (sep : List Char) : List (List Char) → List Char
  | [] => []
  | [x] => x
  | x :: xs => x ++ sep ++ joinSep sep xs

/-- One row of `serializeCsv`: `row.map(escapeCell).join(",")`. -/
def serializeRow (row : List (List Char)) : List Char :=
  joinSep [','] (row.map escapeCell)

/-- Function `serializeCsv` of `src/mcc/proofread/web/app.js` lines 964–968. -/
def serializeCsv (rows : List (List (List Char))) : List Char :=
  joinSep ['\n'] (rows.map serializeRow)

/-- The loop body and epilogue of `parseCsv` (lines 910–951): arguments are
the remaining text, `inQuotes`, `cell`, `row`, `rows`.  The JS lookahead
`text[i + 1] === '"'` is the `rest.head? = some '"'` test (with the matching
`i += 1` skip realized as `rest.tail`). -/
def parseCsvAux : List Char → Bool → List Char → List (List Char) →
    List (List (List Char)) → List (List (List Char))
  | [], _, cell, row, rows =>
    let row := row ++ [cell]
    if row.length > 1 ∨ row.headD [] ≠ [] then rows ++ [row] else rows
  | c :: rest, true, cell, row, rows =>
    if c = '\"' then
      if rest.head? = some '\"' then
        parseCsvAux rest.tail true (cell ++ ['\"']) row rows
      else parseCsvAux rest false cell row rows
    else parseCsvAux rest true (cell ++ [c]) row rows
  | c :: rest, false, cell, row, rows =>
    if c = '\"' then parseCsvAux rest true cell row rows
    else if c = ',' then parseCsvAux rest false [] (row ++ [cell]) rows
    else if c = '\n' then parseCsvAux rest false [] [] (rows ++ [row ++ [cell]])
    else if c = '\r' then parseCsvAux rest false cell row rows
    else parseCsvAux rest false (cell ++ [c]) row rows
termination_by t _ _ _ _ => t.length
decreasing_by
  all_goals simp_all [List.length_tail]
  all_goals omega

/-- Function `parseCsv` of `src/mcc/proofread/web/app.js` lines 910–951. -/
def parseCsv (text : List Char) : List (List (List Char)) :=
  parseCsvAux text false [] [] []

/-! Absorption lemmas describing how the parser consumes serialized pieces. -/

theorem parseCsvAux_plain (cs : List Char)
    (h : ∀ c ∈ cs, needsQuote c = false) :
    ∀ rest cell row rows,
      parseCsvAux (cs ++ rest) false cell row rows =
        parseCsvAux rest false (cell ++ cs) row rows := by
  induction cs with
  | nil => intro rest cell row rows; simp
  | cons c cs2 ih =>
    intro rest cell row rows
    have hc := h c (by simp)
    simp only [needsQuote, Bool.or_eq_false_iff, decide_eq_false_iff_not] at hc
    obtain ⟨⟨⟨h1, h2⟩, h3⟩, h4⟩ := hc
    simp only [List.cons_append, parseCsvAux, if_neg h1, if_neg h2, if_neg h3,
      if_neg h4]
    rw [ih (fun x hx => h x (by simp [hx]))]
    simp

theorem parseCsvAux_quoted (cs : List Char) :
    ∀ rest cell row rows, rest.head? ≠ some '\"' →
      parseCsvAux (escQuotes cs ++ '\"' :: rest) true cell row rows =
        parseCsvAux rest false (cell ++ cs) row rows := by
  induction cs with
  | nil =>
    intro rest cell row rows hrest
    simp [escQuotes, parseCsvAux, if_neg hrest]
  | cons c cs2 ih =>
    intro rest cell row rows hrest
    by_cases hc : c = '\"'
    · subst hc
      have hesc : escQuotes ('\"' :: cs2) = '\"' :: '\"' :: escQuotes cs2 := by
        simp [escQuotes]
      rw [hesc]
      simp only [List.cons_append, parseCsvAux, List.head?_cons,
        List.tail_cons, if_pos rfl, Option.some.injEq]
      rw [ih rest (cell ++ ['\"']) row rows hrest]
      simp
    · simp only [escQuotes, if_neg hc, List.cons_append, parseCsvAux,
        if_neg hc]
      rw [ih rest (cell ++ [c]) row rows hrest]
      simp

theorem parseCsvAux_cell (cell : List Char) :
    ∀ rest cellAcc row rows, rest.head? ≠ some '\"' →
      parseCsvAux (escapeCell cell ++ rest) false cellAcc row rows =
        parseCsvAux rest false (cellAcc ++ cell) row rows := by
  intro rest cellAcc row rows hrest
  by_cases hq : cell.any needsQuote
  · simp only [escapeCell, if_pos hq, List.cons_append, List.append_assoc,
      List.singleton_append, List.nil_append]
    simp only [parseCsvAux, if_pos rfl]
    exact parseCsvAux_quoted cell rest cellAcc row rows hrest
  · simp only [escapeCell, if_neg hq]
    have hplain : ∀ c ∈ cell, needsQuote c = false := by
      intro c hc
      by_contra h
      exact hq (List.any_eq_true.mpr ⟨c, hc, by simpa using h⟩)
    exact parseCsvAux_plain cell hplain rest cellAcc row rows

theorem joinSep_cons (sep : List Char) (x : List Char) (xs : List (List Char))
    (h : xs ≠ []) : joinSep sep (x :: xs) = x ++ sep ++ joinSep sep xs := by
  cases xs with
  | nil => exact absurd rfl h
  | cons y ys => rfl

theorem parseCsvAux_row (cells : List (List Char)) :
    ∀ (last : List Char) (rest : List Char) rowAcc rowsAcc,
      rest.head? ≠ some '\"' →
      parseCsvAux (serializeRow (cells ++ [last]) ++ rest) false [] rowAcc
          rowsAcc =
        parseCsvAux rest false last (rowAcc ++ cells) rowsAcc := by
  induction cells with
  | nil =>
    intro last rest rowAcc rowsAcc hrest
    have : serializeRow [last] = escapeCell last := by
      simp [serializeRow, joinSep]
    rw [List.nil_append, this]
    have h := parseCsvAux_cell last rest [] rowAcc rowsAcc hrest
    simpa using h
  | cons c cs ih =>
    intro last rest rowAcc rowsAcc hrest
    have hmap : (((c :: cs) ++ [last]).map escapeCell) =
        escapeCell c :: ((cs ++ [last]).map escapeCell) := by simp
    have hne : ((cs ++ [last]).map escapeCell) ≠ [] := by simp
    have hser : serializeRow ((c :: cs) ++ [last]) =
        escapeCell c ++ (',' :: (serializeRow (cs ++ [last]))) := by
      simp only [serializeRow, hmap, joinSep_cons _ _ _ hne]
      simp
    rw [hser, List.append_assoc, List.cons_append]
    rw [parseCsvAux_cell c (',' :: (serializeRow (cs ++ [last]) ++ rest)) []
      rowAcc rowsAcc (by simp)]
    simp only [List.nil_append, List.cons_append]
    have hstep : parseCsvAux (',' :: (serializeRow (cs ++ [last]) ++ rest))
        false c rowAcc rowsAcc =
        parseCsvAux (serializeRow (cs ++ [last]) ++ rest) false []
          (rowAcc ++ [c]) rowsAcc := by
      simp [parseCsvAux]
    rw [hstep, ih last rest (rowAcc ++ [c]) rowsAcc hrest]
    simp

theorem parseCsvAux_rows (rows0 : List (List (List Char))) :
    ∀ rowsAcc, (∀ r ∈ rows0, r ≠ []) → rows0.getLast? ≠ some [[]] →
      parseCsvAux (serializeCsv rows0) false [] [] rowsAcc =
        rowsAcc ++ rows0 := by
  induction rows0 with
  | nil => intro rowsAcc _ _; simp [serializeCsv, joinSep, parseCsvAux]
  | cons r rs ih =>
    intro rowsAcc hne hlast
    have hr : r ≠ [] := hne r (by simp)
    obtain ⟨cells, last, rfl⟩ : ∃ cells last, r = cells ++ [last] := by
      refine ⟨r.dropLast, r.getLast hr, ?_⟩
      exact (List.dropLast_append_getLast hr).symm
    cases rs with
    | nil =>
      have hser : serializeCsv [cells ++ [last]] =
          serializeRow (cells ++ [last]) := by
        simp [serializeCsv, joinSep]
      rw [hser]
      have hrow := parseCsvAux_row cells last [] [] rowsAcc
        (by simp)
      rw [List.append_nil] at hrow
      rw [hrow]
      have hrne : cells ++ [last] ≠ [[]] := by
        intro h
        exact hlast (by simp [h])
      simp only [parseCsvAux, List.nil_append]
      have hcond : (cells ++ [last]).length > 1 ∨
          (cells ++ [last]).headD [] ≠ [] := by
        cases cells with
        | nil =>
          right
          simp only [List.nil_append, List.headD_cons]
          intro h
          exact hrne (by simp [h])
        | cons a as => left; simp
      rw [if_pos hcond]
    | cons r2 rs2 =>
      have hmap : ((cells ++ [last]) :: r2 :: rs2).map serializeRow =
          serializeRow (cells ++ [last]) ::
            ((r2 :: rs2).map serializeRow) := by simp
      have hne2 : ((r2 :: rs2).map serializeRow) ≠ [] := by simp
      have hser : serializeCsv ((cells ++ [last]) :: r2 :: rs2) =
          serializeRow (cells ++ [last]) ++
            ('\n' :: serializeCsv (r2 :: rs2)) := by
        simp only [serializeCsv, hmap, joinSep_cons _ _ _ hne2]
        simp
      rw [hser]
      rw [parseCsvAux_row cells last ('\n' :: serializeCsv (r2 :: rs2)) []
        rowsAcc (by simp)]
      have hstep : parseCsvAux ('\n' :: serializeCsv (r2 :: rs2)) false last
          ([] ++ cells) rowsAcc =
          parseCsvAux (serializeCsv (r2 :: rs2)) false [] []
            (rowsAcc ++ [cells ++ [last]]) := by
        simp [parseCsvAux]
      rw [hstep]
      rw [ih (rowsAcc ++ [cells ++ [last]])
        (fun x hx => hne x (List.mem_cons_of_mem _ hx))
        (by simpa using hlast)]
      simp

/-- C2 (counterexample): The round-trip claim fails as stated for the
grid whose single row is the single empty cell: it serializes to the empty
text, which parses back to the empty grid. -/
theorem C2_roundtrip_counterexample :
    parseCsv (serializeCsv [[[]]]) = [] ∧
      ([] : List (List (List Char))) ≠ [[[]]] := by
  constructor
  · simp [serializeCsv, serializeRow, escapeCell, joinSep, parseCsv,
      parseCsvAux, needsQuote]
  · simp

/-- C2 (amended): Parsing the text produced by `serializeCsv` reproduces
the original cell grid exactly — including cells containing commas, double
quotes, and newlines — for every grid in which every row has at least one
cell and whose final row is not the single empty cell (the final-row
heuristic of `parseCsv` drops a trailing row consisting of one empty
cell, and an empty row serializes identically to a row of one empty
cell). -/
theorem C2_roundtrip (rows : List (List (List Char)))
    (h1 : ∀ r ∈ rows, r ≠ []) (h2 : rows.getLast? ≠ some [[]]) :
    parseCsv (serializeCsv rows) = rows := by
  have h := parseCsvAux_rows rows [] h1 h2
  simpa [parseCsv] using h

/-- Closed instance of `C2_roundtrip` on a grid exercising commas, quotes
and newlines. -/
theorem C2_roundtrip_witness :
    parseCsv (serializeCsv [[str "a,b", str "c\"d"], [str "e\nf", str ""]]) =
      [[str "a,b", str "c\"d"], [str "e\nf", str ""]] :=
  C2_roundtrip [[str "a,b", str "c\"d"], [str "e\nf", str ""]]
    (by decide) (by decide)

/-! Column Shift/Offset Editor (`src/mcc/proofread/web/app.js` 724–758)

The editor state is the pair of the cell grid (`state.tableData`) and the
column-name list (`state.columnNames`); both operations read and write only
`tableData`.  Row/column indices are `Nat`, the user delta is `Int`.
-/

structure TableState where
  tableData : List (List (List Char))
  columnNames : List (List Char)
deriving DecidableEq

/-- Whitespace removed by the JS `String.prototype.trim`. -/
def isJsSpace (c : Char) : Bool :=
  c = ' ' || c = '\t' || c = '\n' || c = '\r' || c = '\x0b' || c = '\x0c' ||
    c = ' ' || c = '﻿' || c = ' ' || c = ' '

/-- The JS `String.prototype.trim`. -/
def jsTrim (s : List Char) : List Char :=
  ((s.dropWhile isJsSpace).reverse.dropWhile isJsSpace).reverse

def isDigitCh (c : Char) : Bool := '0' ≤ c && c ≤ '9'

/-- The test `/^-?\d+$/` of `offsetColumnNumbers`. -/
def isIntLit : List Char → Bool
  | [] => false
  | '-' :: ds => !ds.isEmpty && ds.all isDigitCh
  | ds => ds.all isDigitCh

def digitsToNat (ds : List Char) : Nat :=
  ds.foldl (fun acc c => acc * 10 + (c.toNat - 48)) 0

/-- The JS `Number.parseInt(text, 10)` on a string matched by `/^-?\d+$/`. -/
def parseIntLit : List Char → Int
  | '-' :: ds => -(digitsToNat ds : Int)
  | ds => (digitsToNat ds : Int)

/-- Decimal digits of `n`, fuel-indexed so that the recursion is structural
(`n + 1` fuel always suffices). -/
def natToStrAux : Nat → Nat → List Char
  | 0, _ => []
  | fuel + 1, n =>
    if n < 10 then [Char.ofNat (48 + n)]
    else natToStrAux fuel (n / 10) ++ [Char.ofNat (48 + n % 10)]

def natToStr (n : Nat) : List Char := natToStrAux (n + 1) n

/-- The JS `String(next)` on an integer value. -/
def intToStr (i : Int) : List Char :=
  if i < 0 then '-' :: natToStr i.natAbs else natToStr i.toNat

/-- The row loop of `offsetColumnNumbers` (lines 745–758), recursing over
the grid with the absolute row index `i`; rows outside `[startRow, endRow]`
pass through (the JS loop simply never visits them). -/
def offsetAux (col s e : Nat) (δ : Int) :
    Nat → List (List (List Char)) → List (List (List Char)) × Nat
  | _, [] => ([], 0)
  | i, row :: rest =>
    let r2 := offsetAux col s e δ (i + 1) rest
    if s ≤ i ∧ i ≤ e then
      let t := jsTrim (row.getD col [])
      if isIntLit t then
        (row.set col (intToStr (parseIntLit t + δ)) :: r2.1, r2.2 + 1)
      else (row :: r2.1, r2.2)
    else (row :: r2.1, r2.2)

/-- Function `offsetColumnNumbers` of `src/mcc/proofread/web/app.js` lines 745–758:
returns the updated state and the `updated` count. -/
def offsetColumnNumbers (st : TableState) (col s e : Nat) (δ : Int) :
    TableState × Nat :=
  let r := offsetAux col s e δ 0 st.tableData
  ({ st with tableData := r.1 }, r.2)

/-- The first loop of `shiftColumnCells` (lines 724–743): builds the
`shifted` scratch array (initially `length` empty cells) and counts the
non-empty values relocated.  `state.tableData[startRow + i][colIndex] ?? ""`
is the nested `getD`. -/
def shiftedScratch (grid : List (List (List Char))) (col s len : Nat)
    (δ : Int) : List (List Char) × Nat :=
  (List.range len).foldl
    (fun (acc : List (List Char) × Nat) (i : Nat) =>
      let nextIndex := (i : Int) + δ
      if 0 ≤ nextIndex ∧ nextIndex < (len : Int) then
        let value := (grid.getD (s + i) []).getD col []
        (acc.1.set nextIndex.toNat value,
          if value ≠ [] then acc.2 + 1 else acc.2)
      else acc)
    (List.replicate len [], 0)

/-- The write-back loop of `shiftColumnCells`: for `0 ≤ i < len`,
`tableData[startRow + i][colIndex] = shifted[i]`, realized as a recursion
over the grid carrying the absolute row index. -/
def writeColumn (col s len : Nat) (shifted : List (List Char)) :
    Nat → List (List (List Char)) → List (List (List Char))
  | _, [] => []
  | r, row :: rest =>
    (if s ≤ r ∧ r < s + len then row.set col (shifted.getD (r - s) [])
     else row) :: writeColumn col s len shifted (r + 1) rest

/-- Function `shiftColumnCells` of `src/mcc/proofread/web/app.js` lines 724–743
(`length = endRow - startRow + 1`, truncated at zero exactly when the JS
loops would not run). -/
def shiftColumnCells (st : TableState) (col s e : Nat) (δ : Int) :
    TableState × Nat :=
  let len := e + 1 - s
  let scratch := shiftedScratch st.tableData col s len δ
  ({ st with tableData := writeColumn col s len scratch.1 0 st.tableData },
    scratch.2)

theorem offsetAux_length (col s e : Nat) (δ : Int) :
    ∀ (grid : List (List (List Char))) (k : Nat),
      (offsetAux col s e δ k grid).1.length = grid.length := by
  intro grid
  induction grid with
  | nil => intro k; simp [offsetAux]
  | cons row rest ih =>
    intro k
    simp only [offsetAux]
    split
    · split <;> simp [ih]
    · simp [ih]

theorem offsetAux_getD (col s e : Nat) (δ : Int) :
    ∀ (grid : List (List (List Char))) (k j : Nat),
      (offsetAux col s e δ k grid).1.getD j [] =
        if s ≤ k + j ∧ k + j ≤ e ∧ j < grid.length ∧
            isIntLit (jsTrim ((grid.getD j []).getD col [])) then
          (grid.getD j []).set col
            (intToStr (parseIntLit (jsTrim ((grid.getD j []).getD col [])) + δ))
        else grid.getD j [] := by
  intro grid
  induction grid with
  | nil =>
    intro k j
    simp [offsetAux]
  | cons row rest ih =>
    intro k j
    cases j with
    | zero =>
      simp only [offsetAux, List.getD_cons_zero, Nat.add_zero,
        List.length_cons]
      by_cases h1 : s ≤ k ∧ k ≤ e
      · by_cases h2 : isIntLit (jsTrim (row.getD col [])) = true
        · rw [if_pos h1, if_pos h2, if_pos ⟨h1.1, h1.2, by omega, h2⟩]
          simp
        · rw [if_pos h1, if_neg h2,
            if_neg (by rintro ⟨-, -, -, hc⟩; exact h2 hc)]
          simp
      · rw [if_neg h1, if_neg (by rintro ⟨ha, hb, -, -⟩; exact h1 ⟨ha, hb⟩)]
        simp
    | succ j2 =>
      have hstep : (offsetAux col s e δ k (row :: rest)).1.getD (j2 + 1) [] =
          (offsetAux col s e δ (k + 1) rest).1.getD j2 [] := by
        simp only [offsetAux]
        split
        · split <;> simp [List.getD_cons_succ]
        · simp [List.getD_cons_succ]
      rw [hstep, ih (k + 1) j2]
      simp only [List.getD_cons_succ, List.length_cons]
      by_cases hc : s ≤ k + (j2 + 1) ∧ k + (j2 + 1) ≤ e ∧
          j2 + 1 < rest.length + 1 ∧
          isIntLit (jsTrim ((rest.getD j2 []).getD col []))
      · rw [if_pos hc,
          if_pos ⟨by omega, by omega, by omega, hc.2.2.2⟩]
      · rw [if_neg hc, if_neg (by
          rintro ⟨ha, hb, hl, hd⟩
          exact hc ⟨by omega, by omega, by omega, hd⟩)]

theorem offsetAux_count (col s e : Nat) (δ : Int) :
    ∀ (grid : List (List (List Char))) (k : Nat),
      (offsetAux col s e δ k grid).2 =
        List.countP
          (fun j => decide (s ≤ k + j) && decide (k + j ≤ e) &&
            isIntLit (jsTrim ((grid.getD j []).getD col [])))
          (List.range grid.length) := by
  intro grid
  induction grid with
  | nil => intro k; simp [offsetAux]
  | cons row rest ih =>
    intro k
    have hrange : List.range (row :: rest).length =
        0 :: (List.range rest.length).map Nat.succ := by
      simp [List.range_succ_eq_map]
    rw [hrange, List.countP_cons, List.countP_map]
    have htail : List.countP
        ((fun j => decide (s ≤ k + j) && decide (k + j ≤ e) &&
          isIntLit (jsTrim (((row :: rest).getD j []).getD col []))) ∘
          Nat.succ) (List.range rest.length) =
        List.countP
          (fun j => decide (s ≤ k + 1 + j) && decide (k + 1 + j ≤ e) &&
            isIntLit (jsTrim ((rest.getD j []).getD col [])))
          (List.range rest.length) := by
      apply List.countP_congr
      intro j _
      have h1 : k + (j + 1) = k + 1 + j := by omega
      simp [Function.comp, List.getD_cons_succ, h1]
    rw [htail, ← ih (k + 1)]
    simp only [offsetAux, Nat.add_zero, List.getD_cons_zero]
    by_cases h1 : s ≤ k ∧ k ≤ e
    · by_cases h2 : isIntLit (jsTrim (row.getD col [])) = true
      · have h2a : isIntLit (jsTrim (row[col]?.getD [])) = true := by
          simpa [List.getD] using h2
        rw [if_pos h1, if_pos h2, if_pos (by simp [h1.1, h1.2, h2a])]
      · have h2a : ¬isIntLit (jsTrim (row[col]?.getD [])) = true := by
          simpa [List.getD] using h2
        rw [if_pos h1, if_neg h2, if_neg (by simp [h2a])]
        simp
    · rw [if_neg h1,
        if_neg (by rcases Decidable.not_and_iff_or_not.mp h1 with h | h <;>
          simp [h])]
      simp

/-- C6: `offsetColumnNumbers` adds the delta to every cell of the target
column inside the closed row range whose entire trimmed content matches
`/^-?\d+$/`, writing back the decimal string; it leaves every non-integer
cell (and every cell outside the range) untouched and returns the count of
cells modified.  On a column `["10", "abc", "-3"]` with delta `+5` it yields
`["15", "abc", "2"]` and reports 2 modified. -/
theorem C6_offsetColumnNumbers (st : TableState) (col s e : Nat) (δ : Int) :
    ((offsetColumnNumbers st col s e δ).1.columnNames = st.columnNames) ∧
    ((offsetColumnNumbers st col s e δ).1.tableData.length =
      st.tableData.length) ∧
    (∀ i, s ≤ i → i ≤ e → i < st.tableData.length →
      (offsetColumnNumbers st col s e δ).1.tableData.getD i [] =
        (if isIntLit (jsTrim ((st.tableData.getD i []).getD col [])) then
          (st.tableData.getD i []).set col
            (intToStr
              (parseIntLit (jsTrim ((st.tableData.getD i []).getD col [])) + δ))
        else st.tableData.getD i [])) ∧
    (∀ i, i < s ∨ e < i →
      (offsetColumnNumbers st col s e δ).1.tableData.getD i [] =
        st.tableData.getD i []) ∧
    ((offsetColumnNumbers st col s e δ).2 =
      List.countP
        (fun j => decide (s ≤ j) && decide (j ≤ e) &&
          isIntLit (jsTrim ((st.tableData.getD j []).getD col [])))
        (List.range st.tableData.length)) ∧
    (offsetColumnNumbers
        ⟨[[str "10"], [str "abc"], [str "-3"]], [str "index"]⟩ 0 0 2 5 =
      (⟨[[str "15"], [str "abc"], [str "2"]], [str "index"]⟩, 2)) := by
  refine ⟨rfl, ?_, ?_, ?_, ?_, ?_⟩
  · exact offsetAux_length col s e δ st.tableData 0
  · intro i his hie hilen
    have h := offsetAux_getD col s e δ st.tableData 0 i
    simp only [Nat.zero_add] at h
    rw [show (offsetColumnNumbers st col s e δ).1.tableData =
      (offsetAux col s e δ 0 st.tableData).1 from rfl, h]
    by_cases hint : isIntLit (jsTrim ((st.tableData.getD i []).getD col []))
        = true
    · rw [if_pos ⟨his, hie, hilen, hint⟩, if_pos hint]
    · rw [if_neg (by rintro ⟨-, -, -, hc⟩; exact hint hc), if_neg hint]
  · intro i hout
    have h := offsetAux_getD col s e δ st.tableData 0 i
    simp only [Nat.zero_add] at h
    rw [show (offsetColumnNumbers st col s e δ).1.tableData =
      (offsetAux col s e δ 0 st.tableData).1 from rfl, h]
    rw [if_neg (by rintro ⟨ha, hb, -, -⟩; rcases hout with h | h <;> omega)]
  · have h := offsetAux_count col s e δ st.tableData 0
    simp only [Nat.zero_add] at h
    exact h
  · decide

/-- Closed instance of `C6_offsetColumnNumbers` at the example column
`["10", "abc", "-3"]`, delta `+5`: row 0 satisfies the range hypotheses and
is rewritten to `"15"`. -/
theorem C6_offsetColumnNumbers_witness :
    (offsetColumnNumbers
        ⟨[[str "10"], [str "abc"], [str "-3"]], [str "index"]⟩
        0 0 2 5).1.tableData.getD 0 [] = [str "15"] := by
  have h := (C6_offsetColumnNumbers
    ⟨[[str "10"], [str "abc"], [str "-3"]], [str "index"]⟩ 0 0 2 5).2.2.1
    0 (by decide) (by decide) (by decide)
  rw [h]
  decide

theorem writeColumn_length (col s len : Nat) (shifted : List (List Char)) :
    ∀ (grid : List (List (List Char))) (r : Nat),
      (writeColumn col s len shifted r grid).length = grid.length := by
  intro grid
  induction grid with
  | nil => intro r; simp [writeColumn]
  | cons row rest ih => intro r; simp [writeColumn, ih]

theorem writeColumn_getD (col s len : Nat) (shifted : List (List Char)) :
    ∀ (grid : List (List (List Char))) (r j : Nat),
      (writeColumn col s len shifted r grid).getD j [] =
        if s ≤ r + j ∧ r + j < s + len ∧ j < grid.length then
          (grid.getD j []).set col (shifted.getD (r + j - s) [])
        else grid.getD j [] := by
  intro grid
  induction grid with
  | nil => intro r j; simp [writeColumn]
  | cons row rest ih =>
    intro r j
    cases j with
    | zero =>
      simp only [writeColumn, List.getD_cons_zero, Nat.add_zero,
        List.length_cons]
      by_cases h1 : s ≤ r ∧ r < s + len
      · rw [if_pos h1, if_pos ⟨h1.1, h1.2, by omega⟩]
      · rw [if_neg h1, if_neg (by rintro ⟨ha, hb, -⟩; exact h1 ⟨ha, hb⟩)]
    | succ j2 =>
      have hstep : (writeColumn col s len shifted r
          (row :: rest)).getD (j2 + 1) [] =
          (writeColumn col s len shifted (r + 1) rest).getD j2 [] := by
        simp [writeColumn, List.getD_cons_succ]
      rw [hstep, ih (r + 1) j2]
      simp only [List.getD_cons_succ, List.length_cons]
      by_cases hc : s ≤ r + 1 + j2 ∧ r + 1 + j2 < s + len ∧ j2 < rest.length
      · rw [if_pos hc, if_pos ⟨by omega, by omega, by omega⟩]
        have : r + 1 + j2 - s = r + (j2 + 1) - s := by omega
        rw [this]
      · have hc2 : ¬(s ≤ r + (j2 + 1) ∧ r + (j2 + 1) < s + len ∧
            j2 + 1 < rest.length + 1) := by
          rintro ⟨ha, hb, hl⟩
          exact hc ⟨by omega, by omega, by omega⟩
        rw [if_neg hc, if_neg hc2]

/-- C10: Both bulk column operations touch only their target: for every
table state, target column, closed row range `[startRow, endRow]` and
delta, `shiftColumnCells` and `offsetColumnNumbers` leave every cell that
is in a different column or outside the row range unchanged, and leave the
column-name list and the number of rows unchanged. -/
theorem C10_bulk_ops_frame (st : TableState) (col s e : Nat) (δ : Int) :
    ((shiftColumnCells st col s e δ).1.columnNames = st.columnNames) ∧
    ((offsetColumnNumbers st col s e δ).1.columnNames = st.columnNames) ∧
    ((shiftColumnCells st col s e δ).1.tableData.length =
      st.tableData.length) ∧
    ((offsetColumnNumbers st col s e δ).1.tableData.length =
      st.tableData.length) ∧
    (∀ r c, r < s ∨ e < r ∨ c ≠ col →
      ((shiftColumnCells st col s e δ).1.tableData.getD r []).getD c [] =
          (st.tableData.getD r []).getD c [] ∧
        ((offsetColumnNumbers st col s e δ).1.tableData.getD r []).getD c [] =
          (st.tableData.getD r []).getD c []) := by
  refine ⟨rfl, rfl, ?_, ?_, ?_⟩
  · exact writeColumn_length col s (e + 1 - s) _ st.tableData 0
  · exact offsetAux_length col s e δ st.tableData 0
  · intro r c hout
    have hset : ∀ (row : List (List Char)) (v : List Char), c ≠ col →
        (row.set col v).getD c [] = row.getD c [] := by
      intro row v hne
      simp [List.getD, List.getElem?_set_ne (fun h => hne h.symm)]
    constructor
    · have h := writeColumn_getD col s (e + 1 - s)
        (shiftedScratch st.tableData col s (e + 1 - s) δ).1 st.tableData 0 r
      simp only [Nat.zero_add] at h
      rw [show (shiftColumnCells st col s e δ).1.tableData =
        writeColumn col s (e + 1 - s)
          (shiftedScratch st.tableData col s (e + 1 - s) δ).1 0 st.tableData
        from rfl, h]
      rcases hout with h1 | h1 | h1
      · rw [if_neg (by rintro ⟨ha, -, -⟩; omega)]
      · rw [if_neg (by rintro ⟨ha, hb, -⟩; omega)]
      · split
        · exact hset _ _ h1
        · rfl
    · have h := offsetAux_getD col s e δ st.tableData 0 r
      simp only [Nat.zero_add] at h
      rw [show (offsetColumnNumbers st col s e δ).1.tableData =
        (offsetAux col s e δ 0 st.tableData).1 from rfl, h]
      rcases hout with h1 | h1 | h1
      · rw [if_neg (by rintro ⟨ha, -, -⟩; omega)]
      · rw [if_neg (by rintro ⟨-, hb, -⟩; omega)]
      · split
        · exact hset _ _ h1
        · rfl

/-- Closed instance of `C10_bulk_ops_frame`: on a 2×2 table, shifting or
offsetting column 0 over rows 1–1 leaves the row-0, column-1 cell in
place. -/
theorem C10_bulk_ops_frame_witness :
    ((shiftColumnCells ⟨[[str "1", str "a"], [str "2", str "b"]],
        [str "u", str "v"]⟩ 0 1 1 1).1.tableData.getD 0 []).getD 1 [] =
      str "a" ∧
    ((offsetColumnNumbers ⟨[[str "1", str "a"], [str "2", str "b"]],
        [str "u", str "v"]⟩ 0 1 1 1).1.tableData.getD 0 []).getD 1 [] =
      str "a" := by
  have h := (C10_bulk_ops_frame
    ⟨[[str "1", str "a"], [str "2", str "b"]], [str "u", str "v"]⟩
    0 1 1 1).2.2.2.2 0 1 (by left; decide)
  exact ⟨h.1.trans (by decide), h.2.trans (by decide)⟩

/-! Session Diff-and-Save Protocol (`src/mcc/proofread/web/app.js`)

`saveCurrent` (lines 970–1040) and `buildMetadata` (lines 1042–1059).
The parts of the module state and of the UI inputs that the protocol reads
and writes are collected in `SessionState`; the pass input field
`elements.metaLevel.value` is modelled by its `Number.parseInt` result
(`none` for a blank or non-numeric field), and the two asynchronous
`writeServer` calls by two oracle booleans saying whether each write would
succeed.  The trailing `updateReadmeStats` call only affects the status
message, never the return value or the session state.
-/

structure Meta where
  source_csv : List Char
  source_image : Option (List Char)
  proofread_pass : Option Int
  proofread_level : Option (List Char)
  proofread_by : Option (List Char)
  proofread_started_at : Option (List Char)
  proofread_completed_at : Option (List Char)
  notes : Option (List Char)
  columns : List (List Char)
deriving DecidableEq

structure SessionState where
  hasCurrent : Bool
  itemBase : List Char
  itemImagePath : Option (List Char)
  tableData : List (List (List Char))
  columnNames : List (List Char)
  meta : Option Meta
  originalCsvSerialized : List Char
  originalMetaSerialized : List Char
  originalPass : Option Int
  sessionStartedAt : List Char
  metaLevelValue : Option Int
  metaByValue : List Char
  metaNotesValue : List Char
  metaStartedValue : List Char
  metaCompletedValue : List Char
  configured : Bool
deriving DecidableEq

/-- The JS `value || null` on a string: the empty string is falsy. -/
def strOrNone (s : List Char) : Option (List Char) :=
  if s.isEmpty then none else some s

/-- The JS `a || b` on strings. -/
def jsOrStr (a b : List Char) : List Char := if a.isEmpty then b else a

/-- The JS `state.originalPass || 0` (null and 0 are falsy). -/
def jsOrZero : Option Int → Int
  | none => 0
  | some v => if v = 0 then 0 else v

/-- Function `parsePassInput` of lines 149–159 on the parsed field content: `null`
for blank/non-numeric input and for values ≤ 0. -/
def parsePassInput (raw : Option Int) : Option Int :=
  match raw with
  | none => none
  | some n => if n ≤ 0 then none else some n

/-- The JS `item.imagePath.split("/").pop()`. -/
def lastSlashComponent (p : List Char) : List Char :=
  (p.splitOn '/').getLastD []

/-- Function `buildMetadata` of lines 1042–1059.  `overrides.pass ?? parsePassInput()`
and the two `??`-chains become `Option.orElse`; `startedAt || null` and
`value || null` become `strOrNone`. -/
def buildMetadata (st : SessionState) (passOverride : Option Int)
    (startedOverride completedOverride : Option (List Char)) : Meta :=
  let pass := passOverride.orElse
    (fun _ => parsePassInput st.metaLevelValue)
  let startedAt := startedOverride.orElse
    (fun _ => st.meta.bind (·.proofread_started_at))
  let completedAt := completedOverride.orElse
    (fun _ => st.meta.bind (·.proofread_completed_at))
  { source_csv := st.itemBase ++ str ".csv"
    source_image := st.itemImagePath.map lastSlashComponent
    proofread_pass := pass
    proofread_level :=
      match pass with
      | none => none
      | some p => if p = 0 then none else some (str "pass-" ++ intToStr p)
    proofread_by := strOrNone st.metaByValue
    proofread_started_at := startedAt.bind strOrNone
    proofread_completed_at := completedAt.bind strOrNone
    notes := strOrNone st.metaNotesValue
    columns := st.columnNames }

def hexDigit (n : Nat) : Char :=
  if n < 10 then Char.ofNat (48 + n) else Char.ofNat (87 + n)

/-- The escaping performed by `JSON.stringify` on one string character. -/
def jsonEscapeChar (c : Char) : List Char :=
  if c = '\"' then ['\\', '\"']
  else if c = '\\' then ['\\', '\\']
  else if c = '\x08' then ['\\', 'b']
  else if c = '\t' then ['\\', 't']
  else if c = '\n' then ['\\', 'n']
  else if c = '\x0c' then ['\\', 'f']
  else if c = '\x0d' then ['\\', 'r']
  else if c.toNat < 32 then
    ['\\', 'u', '0', '0', hexDigit (c.toNat / 16), hexDigit (c.toNat % 16)]
  else [c]

def jsonStr (s : List Char) : List Char :=
  '\"' :: (s.map jsonEscapeChar).flatten ++ ['\"']

def jsonOptStr : Option (List Char) → List Char
  | none => str "null"
  | some s => jsonStr s

def jsonOptInt : Option Int → List Char
  | none => str "null"
  | some n => intToStr n

def jsonColumns : List (List Char) → List Char
  | [] => str "[]"
  | xs => str "[\n" ++
      joinSep (str ",\n") (xs.map (fun s => str "    " ++ jsonStr s)) ++
      str "\n  ]"

/-- The JS `JSON.stringify(metadata, null, 2)` on the fixed record shape built by
`buildMetadata`: keys in insertion order, two-space indentation. -/
def serializeMeta (m : Meta) : List Char :=
  str "\x7b\n  \"source_csv\": " ++ jsonStr m.source_csv ++
  str ",\n  \"source_image\": " ++ jsonOptStr m.source_image ++
  str ",\n  \"proofread_pass\": " ++ jsonOptInt m.proofread_pass ++
  str ",\n  \"proofread_level\": " ++ jsonOptStr m.proofread_level ++
  str ",\n  \"proofread_by\": " ++ jsonOptStr m.proofread_by ++
  str ",\n  \"proofread_started_at\": " ++ jsonOptStr m.proofread_started_at ++
  str ",\n  \"proofread_completed_at\": " ++
    jsonOptStr m.proofread_completed_at ++
  str ",\n  \"notes\": " ++ jsonOptStr m.notes ++
  str ",\n  \"columns\": " ++ jsonColumns m.columns ++
  str "\n\x7d"

inductive SaveOutcome
  | noCsvLoaded
  | noChanges
  | notConfigured
  | writeFailed
  | saved
deriving DecidableEq

structure SaveResult where
  state : SessionState
  outcome : SaveOutcome
  returned : Bool
  builtMeta : Option Meta
  wroteCsv : Bool
  wroteMeta : Bool
deriving DecidableEq

/-- Function `saveCurrent` of lines 970–1040.  `now` is `nowLocalValue()`;
`csvWriteOk`/`metaWriteOk` say whether the `writeServer` call for each
target would succeed.  `wroteCsv`/`wroteMeta` record which writes were
attempted (the metadata write is only reached when the document write did
not throw). -/
def saveCurrent (st : SessionState) (now : List Char)
    (csvWriteOk metaWriteOk : Bool) : SaveResult :=
  if st.hasCurrent = false then ⟨st, .noCsvLoaded, false, none, false, false⟩
  else
    let currentCsvSerialized := serializeCsv st.tableData
    let csvChanged := currentCsvSerialized ≠ st.originalCsvSerialized
    let passInput := parsePassInput st.metaLevelValue
    let pass := if csvChanged ∧ passInput = none then
      some (jsOrZero st.originalPass + 1) else passInput
    let st1 := if csvChanged ∧ passInput = none then
      { st with metaLevelValue := pass } else st
    let startedAt : Option (List Char) :=
      if csvChanged then some (jsOrStr st.sessionStartedAt now)
      else (st.meta.bind (·.proofread_started_at)).bind strOrNone
    let completedAt : Option (List Char) :=
      if csvChanged then some now
      else (st.meta.bind (·.proofread_completed_at)).bind strOrNone
    let metadata := buildMetadata st1 pass startedAt completedAt
    let metadataSerialized := serializeMeta metadata
    let metadataChanged := metadataSerialized ≠ st.originalMetaSerialized
    if ¬(csvChanged ∨ metadataChanged) then
      ⟨st1, .noChanges, true, some metadata, false, false⟩
    else if st.configured = false then
      ⟨st1, .notConfigured, false, some metadata, false, false⟩
    else if (csvChanged ∧ csvWriteOk = false) ∨
        ((metadataChanged ∧ ¬(csvChanged ∧ csvWriteOk = false)) ∧
          metaWriteOk = false) then
      ⟨st1, .writeFailed, false, some metadata, csvChanged,
        metadataChanged ∧ ¬(csvChanged ∧ csvWriteOk = false)⟩
    else
      ⟨{ st1 with
          meta := some metadata
          originalCsvSerialized := currentCsvSerialized
          originalMetaSerialized := metadataSerialized
          originalPass := metadata.proofread_pass
          metaStartedValue :=
            if csvChanged then startedAt.getD [] else st1.metaStartedValue
          metaCompletedValue :=
            if csvChanged then completedAt.getD []
            else st1.metaCompletedValue },
        .saved, true, some metadata, csvChanged,
        metadataChanged ∧ ¬(csvChanged ∧ csvWriteOk = false)⟩

/-- C3: Whenever `saveCurrent` runs with a loaded document whose current
serialization differs from the baseline and no explicit pass number entered
in the UI, the pass stamped into the freshly built metadata record is the
recorded previous pass plus 1, an absent previous pass counting as 0. -/
theorem C3_auto_pass_increment (st : SessionState) (now : List Char)
    (cOk mOk : Bool)
    (h1 : st.hasCurrent = true)
    (h2 : serializeCsv st.tableData ≠ st.originalCsvSerialized)
    (h3 : parsePassInput st.metaLevelValue = none) :
    (saveCurrent st now cOk mOk).builtMeta.map Meta.proofread_pass =
      some (some (jsOrZero st.originalPass + 1)) := by
  simp only [saveCurrent, h1, Bool.true_eq_false, if_false, h3, h2,
    ne_eq, not_false_iff, and_true, if_true, if_pos, buildMetadata,
    Option.orElse]
  repeat' split
  all_goals simp

/-- Closed instance of `C3_auto_pass_increment`: a session whose recorded
previous pass is 3 and whose pass field is blank stamps pass 4 on a changed
document. -/
theorem C3_auto_pass_increment_witness :
    (saveCurrent
      { hasCurrent := true, itemBase := str "col-001", itemImagePath := none,
        tableData := [[str "x"]], columnNames := [str "index"], meta := none,
        originalCsvSerialized := str "old", originalMetaSerialized := [],
        originalPass := some 3, sessionStartedAt := [],
        metaLevelValue := none, metaByValue := [], metaNotesValue := [],
        metaStartedValue := [], metaCompletedValue := [], configured := true }
      (str "2025-01-01T00:00") true true).builtMeta.map Meta.proofread_pass =
      some (some 4) := by
  have h := C3_auto_pass_increment
    { hasCurrent := true, itemBase := str "col-001", itemImagePath := none,
      tableData := [[str "x"]], columnNames := [str "index"], meta := none,
      originalCsvSerialized := str "old", originalMetaSerialized := [],
      originalPass := some 3, sessionStartedAt := [],
      metaLevelValue := none, metaByValue := [], metaNotesValue := [],
      metaStartedValue := [], metaCompletedValue := [], configured := true }
    (str "2025-01-01T00:00") true true rfl
    (by simp [serializeCsv, serializeRow, escapeCell, joinSep, needsQuote,
      str])
    rfl
  simpa [jsOrZero] using h

/-- C4: If writing either the changed document or the changed metadata
fails during `saveCurrent`, the save aborts with a failure return and the
session baseline — the stored serialized document, the stored serialized
metadata, and the recorded previous-pass value — as well as the in-memory
document and metadata record are left exactly as before the attempt, so a
retry of `saveCurrent` observes the same pre-save state. -/
theorem C4_write_failure_preserves_baseline (st : SessionState)
    (now : List Char) (cOk mOk : Bool) :
    (saveCurrent st now cOk mOk).outcome = SaveOutcome.writeFailed →
      (saveCurrent st now cOk mOk).returned = false ∧
      (saveCurrent st now cOk mOk).state.originalCsvSerialized =
        st.originalCsvSerialized ∧
      (saveCurrent st now cOk mOk).state.originalMetaSerialized =
        st.originalMetaSerialized ∧
      (saveCurrent st now cOk mOk).state.originalPass = st.originalPass ∧
      (saveCurrent st now cOk mOk).state.tableData = st.tableData ∧
      (saveCurrent st now cOk mOk).state.meta = st.meta := by
  simp only [saveCurrent]
  repeat' split
  all_goals intro h
  all_goals simp_all

/-- Closed instance of `C4_write_failure_preserves_baseline`: a failing
document write on a changed document aborts and keeps the baseline. -/
theorem C4_write_failure_preserves_baseline_witness :
    (saveCurrent
      { hasCurrent := true, itemBase := str "b", itemImagePath := none,
        tableData := [[str "a"]], columnNames := [str "c"], meta := none,
        originalCsvSerialized := str "old", originalMetaSerialized := [],
        originalPass := none, sessionStartedAt := [],
        metaLevelValue := none, metaByValue := [], metaNotesValue := [],
        metaStartedValue := [], metaCompletedValue := [], configured := true }
      (str "now") false true).returned = false ∧
    (saveCurrent
      { hasCurrent := true, itemBase := str "b", itemImagePath := none,
        tableData := [[str "a"]], columnNames := [str "c"], meta := none,
        originalCsvSerialized := str "old", originalMetaSerialized := [],
        originalPass := none, sessionStartedAt := [],
        metaLevelValue := none, metaByValue := [], metaNotesValue := [],
        metaStartedValue := [], metaCompletedValue := [],
        configured := true }
      (str "now") false true).state.originalCsvSerialized = str "old" := by
  have h := C4_write_failure_preserves_baseline
    { hasCurrent := true, itemBase := str "b", itemImagePath := none,
      tableData := [[str "a"]], columnNames := [str "c"], meta := none,
      originalCsvSerialized := str "old", originalMetaSerialized := [],
      originalPass := none, sessionStartedAt := [],
      metaLevelValue := none, metaByValue := [], metaNotesValue := [],
      metaStartedValue := [], metaCompletedValue := [], configured := true }
    (str "now") false true
    (by simp [saveCurrent, serializeCsv, serializeRow, escapeCell, joinSep,
      needsQuote, str])
  exact ⟨h.1, h.2.1⟩

/-- C5: If at save time neither the current document serialization nor
the freshly built candidate metadata serialization differs from the
corresponding baseline snapshot, `saveCurrent` reports that there is
nothing to save, returns success, attempts no write, and leaves the entire
session state — in particular the baseline and the pass number —
unchanged. -/
theorem C5_noop_save (st : SessionState) (now : List Char) (cOk mOk : Bool)
    (h1 : st.hasCurrent = true)
    (h2 : serializeCsv st.tableData = st.originalCsvSerialized)
    (h3 : serializeMeta
        (buildMetadata st (parsePassInput st.metaLevelValue)
          ((st.meta.bind (·.proofread_started_at)).bind strOrNone)
          ((st.meta.bind (·.proofread_completed_at)).bind strOrNone)) =
      st.originalMetaSerialized) :
    (saveCurrent st now cOk mOk).outcome = SaveOutcome.noChanges ∧
    (saveCurrent st now cOk mOk).returned = true ∧
    (saveCurrent st now cOk mOk).wroteCsv = false ∧
    (saveCurrent st now cOk mOk).wroteMeta = false ∧
    (saveCurrent st now cOk mOk).state = st := by
  simp only [saveCurrent, h1, Bool.true_eq_false, if_false, h2, ne_eq,
    not_true, false_and, if_false, not_false_iff]
  simp [h2, h3]

set_option maxRecDepth 8000 in
/-- Closed instance of `C5_noop_save`: unchanged document and metadata give
a successful no-op save. -/
theorem C5_noop_save_witness :
    (saveCurrent
      { hasCurrent := true, itemBase := str "b", itemImagePath := none,
        tableData := [[str "a"]], columnNames := [str "c"], meta := none,
        originalCsvSerialized := str "a",
        originalMetaSerialized := str "\x7b\n  \"source_csv\": \"b.csv\",\n  \"source_image\": null,\n  \"proofread_pass\": null,\n  \"proofread_level\": null,\n  \"proofread_by\": null,\n  \"proofread_started_at\": null,\n  \"proofread_completed_at\": null,\n  \"notes\": null,\n  \"columns\": [\n    \"c\"\n  ]\n\x7d",
        originalPass := none, sessionStartedAt := [],
        metaLevelValue := none, metaByValue := [], metaNotesValue := [],
        metaStartedValue := [], metaCompletedValue := [],
        configured := true }
      (str "now") true true).outcome = SaveOutcome.noChanges ∧
    (saveCurrent
      { hasCurrent := true, itemBase := str "b", itemImagePath := none,
        tableData := [[str "a"]], columnNames := [str "c"], meta := none,
        originalCsvSerialized := str "a",
        originalMetaSerialized := str "\x7b\n  \"source_csv\": \"b.csv\",\n  \"source_image\": null,\n  \"proofread_pass\": null,\n  \"proofread_level\": null,\n  \"proofread_by\": null,\n  \"proofread_started_at\": null,\n  \"proofread_completed_at\": null,\n  \"notes\": null,\n  \"columns\": [\n    \"c\"\n  ]\n\x7d",
        originalPass := none, sessionStartedAt := [],
        metaLevelValue := none, metaByValue := [], metaNotesValue := [],
        metaStartedValue := [], metaCompletedValue := [],
        configured := true }
      (str "now") true true).returned = true := by
  have h := C5_noop_save
    { hasCurrent := true, itemBase := str "b", itemImagePath := none,
      tableData := [[str "a"]], columnNames := [str "c"], meta := none,
      originalCsvSerialized := str "a",
      originalMetaSerialized := str "\x7b\n  \"source_csv\": \"b.csv\",\n  \"source_image\": null,\n  \"proofread_pass\": null,\n  \"proofread_level\": null,\n  \"proofread_by\": null,\n  \"proofread_started_at\": null,\n  \"proofread_completed_at\": null,\n  \"notes\": null,\n  \"columns\": [\n    \"c\"\n  ]\n\x7d",
      originalPass := none, sessionStartedAt := [],
      metaLevelValue := none, metaByValue := [], metaNotesValue := [],
      metaStartedValue := [], metaCompletedValue := [],
      configured := true }
    (str "now") true true rfl
    (by simp [serializeCsv, serializeRow, escapeCell, joinSep, needsQuote,
      str])
    (by decide)
  exact ⟨h.1, h.2.1⟩

/-! Pinyin-Aware Search Matcher (`src/docs/app.js`)

Character tables and predicates model the regular-expression constants of
lines 58–94; `buildSearchMatcher` (lines 379–426), `matchGlob`
(lines 342–377) and the pinyin normalizers (lines 124–195) are translated
over `List Char`.
-/

/-- Function `normalizePattern` (lines 96–98): fold fullwidth wildcard characters. -/
def normalizePattern (s : List Char) : List Char :=
  s.map (fun c => if c = '？' then '?' else if c = '＊' then '*' else c)

/-- The `TONE_MARKS` table (lines 58–83): base letter and tone number of
each diacritic-marked vowel. -/
def toneMark? (c : Char) : Option (Char × Nat) :=
  match c with
  | 'ā' => some ('a', 1) | 'á' => some ('a', 2)
  | 'ǎ' => some ('a', 3) | 'à' => some ('a', 4)
  | 'ē' => some ('e', 1) | 'é' => some ('e', 2)
  | 'ě' => some ('e', 3) | 'è' => some ('e', 4)
  | 'ī' => some ('i', 1) | 'í' => some ('i', 2)
  | 'ǐ' => some ('i', 3) | 'ì' => some ('i', 4)
  | 'ō' => some ('o', 1) | 'ó' => some ('o', 2)
  | 'ǒ' => some ('o', 3) | 'ò' => some ('o', 4)
  | 'ū' => some ('u', 1) | 'ú' => some ('u', 2)
  | 'ǔ' => some ('u', 3) | 'ù' => some ('u', 4)
  | 'ǖ' => some ('ü', 1) | 'ǘ' => some ('ü', 2)
  | 'ǚ' => some ('ü', 3) | 'ǜ' => some ('ü', 4)
  | _ => none

/-- The JS `String.prototype.toLowerCase` restricted to the character domain the
matcher works over: ASCII letters and the uppercase forms of the marked
vowels used by the pinyin tables. -/
def jsToLower (c : Char) : Char :=
  if 'A' ≤ c ∧ c ≤ 'Z' then Char.ofNat (c.toNat + 32)
  else
    match c with
    | 'Ā' => 'ā' | 'Á' => 'á' | 'Ǎ' => 'ǎ' | 'À' => 'à'
    | 'Ē' => 'ē' | 'É' => 'é' | 'Ě' => 'ě' | 'È' => 'è'
    | 'Ī' => 'ī' | 'Í' => 'í' | 'Ǐ' => 'ǐ' | 'Ì' => 'ì'
    | 'Ō' => 'ō' | 'Ó' => 'ó' | 'Ǒ' => 'ǒ' | 'Ò' => 'ò'
    | 'Ū' => 'ū' | 'Ú' => 'ú' | 'Ǔ' => 'ǔ' | 'Ù' => 'ù'
    | 'Ǖ' => 'ǖ' | 'Ǘ' => 'ǘ' | 'Ǚ' => 'ǚ' | 'Ǜ' => 'ǜ'
    | 'Ü' => 'ü'
    | _ => c

/-- The regex `TONE_DIGIT_RE = /[1-5]/`. -/
def isToneDigit (c : Char) : Bool := '1' ≤ c && c ≤ '5'

/-- The regex `CJK_RE` over the CJK ideograph range. -/
def isCJK (c : Char) : Bool := 0x3400 ≤ c.toNat && c.toNat ≤ 0x9fff

/-- The character class of `PINYIN_ALLOWED_RE` (case-insensitive). -/
def pinyinAllowedChar (c : Char) : Bool :=
  let lc := jsToLower c
  ('a' ≤ lc && lc ≤ 'z') || (toneMark? lc).isSome || lc = 'ü' ||
    isJsSpace c || c = '*' || c = '?' || c = Char.ofNat 39 || isDigitCh c

/-- The character class of `PINYIN_VOWEL_RE` (case-insensitive). -/
def pinyinVowelChar (c : Char) : Bool :=
  let lc := jsToLower c
  lc = 'a' || lc = 'e' || lc = 'i' || lc = 'o' || lc = 'u' || lc = 'ü' ||
    lc = 'v' || (toneMark? lc).isSome

/-- Function `isLikelyPinyin` of lines 99–111. -/
def isLikelyPinyin (value : List Char) : Bool :=
  let trimmed := jsTrim (normalizePattern value)
  if trimmed.isEmpty then false
  else if trimmed.any isCJK then false
  else if !(trimmed.all pinyinAllowedChar) then false
  else if trimmed.any isToneDigit then true
  else trimmed.any pinyinVowelChar

inductive PinyinMode
  | digits
  | marks
  | plain
deriving DecidableEq

/-- Function `detectPinyinMode` of lines 113–121. -/
def detectPinyinMode (value : List Char) : PinyinMode :=
  if value.any isToneDigit then .digits
  else if value.any (fun c => (toneMark? c).isSome) then .marks
  else .plain

/-- The JS whitespace-collapsing replace: collapse whitespace runs to a
single space (the boolean records whether the previous character was part
of a run). -/
def collapseWsAux : List Char → Bool → List Char
  | [], _ => []
  | c :: rest, inWs =>
    if isJsSpace c then
      if inWs then collapseWsAux rest true else ' ' :: collapseWsAux rest true
    else c :: collapseWsAux rest false

def collapseWs (l : List Char) : List Char := collapseWsAux l false

/-- Function `normalizePinyinMarks` of lines 124–130. -/
def normalizePinyinMarks (value : List Char) : List Char :=
  jsTrim (collapseWs
    (((normalizePattern value).map jsToLower).map
      (fun c => if c = 'v' then 'ü' else c)))

/-- Function `normalizePinyinPlain` of lines 132–153. -/
def normalizePinyinPlain (value : List Char) : List Char :=
  let marked := normalizePinyinMarks value
  if marked.isEmpty then []
  else
    let result := (marked.map (fun c =>
      if c = '*' ∨ c = '?' ∨ c = ' ' then [c]
      else if isToneDigit c then []
      else
        match toneMark? c with
        | some m => [m.1]
        | none => [c])).flatten
    collapseWs (jsTrim result)

def isWildcardCh (c : Char) : Bool := c = '*' || c = '?'

/-- Function `pinyinTokenToDigits` of lines 155–187: strip the trailing wildcard
run, scan the core accumulating the tone (digit or diacritic, last wins)
and the unmarked letters, then reattach digit and wildcards. -/
def pinyinTokenToDigits (token : List Char) : List Char :=
  if token.isEmpty then []
  else
    let suffix := (token.reverse.takeWhile isWildcardCh).reverse
    let core := token.take (token.length - suffix.length)
    let st := core.foldl
      (fun (acc : Nat × List Char) c =>
        if isWildcardCh c then (acc.1, acc.2 ++ [c])
        else if isToneDigit c then (c.toNat - 48, acc.2)
        else
          match toneMark? c with
          | some m => (m.2, acc.2 ++ [m.1])
          | none => (acc.1, acc.2 ++ [c]))
      (0, [])
    if st.2.isEmpty ∧ suffix.isEmpty then []
    else (if st.1 > 0 then st.2 ++ natToStr st.1 else st.2) ++ suffix

/-- The JS whitespace split with empty filtering: whitespace-separated tokens, no
empties (the accumulator holds the current token reversed). -/
def splitWsAux : List Char → List Char → List (List Char)
  | [], acc => if acc.isEmpty then [] else [acc.reverse]
  | c :: rest, acc =>
    if isJsSpace c then
      if acc.isEmpty then splitWsAux rest []
      else acc.reverse :: splitWsAux rest []
    else splitWsAux rest (c :: acc)

def splitWs (l : List Char) : List (List Char) := splitWsAux l []

/-- Function `normalizePinyinDigits` of lines 189–195. -/
def normalizePinyinDigits (value : List Char) : List Char :=
  let marked := normalizePinyinMarks value
  if marked.isEmpty then []
  else joinSep [' '] ((splitWs marked).map pinyinTokenToDigits)

/-- The JS `String.prototype.startsWith`. -/
def startsWith : List Char → List Char → Bool
  | _, [] => true
  | [], _ :: _ => false
  | a :: as, b :: bs => a = b && startsWith as bs

/-- The JS `String.prototype.includes`: substring containment. -/
def jsIncludes (hay needle : List Char) : Bool :=
  match hay with
  | [] => needle.isEmpty
  | _ :: t => startsWith hay needle || jsIncludes t needle

/-- The `while (tIndex < textChars.length)` loop of `matchGlob`
(lines 342–377), with state `(tIndex, pIndex, starIndex, matchIndex)`.
The loop always terminates; here it is indexed by a fuel argument that
`matchGlob` instantiates with an upper bound on the number of iterations
(the adequacy of that bound is part of the correctness proof).  After the
loop, the JS epilogue skips `*`s at `pIndex` and requires the end of the
pattern, i.e. every remaining pattern character is `*`. -/
def globLoopFuel (tcs pcs : List Char) :
    Nat → Nat → Nat → Option Nat → Nat → Bool
  | 0, _, _, _, _ => false
  | fuel + 1, t, p, star, m =>
    if t < tcs.length then
      if p < pcs.length ∧
          (pcs.getD p ' ' = '?' ∨ pcs.getD p ' ' = tcs.getD t ' ') then
        globLoopFuel tcs pcs fuel (t + 1) (p + 1) star m
      else if p < pcs.length ∧ pcs.getD p ' ' = '*' then
        globLoopFuel tcs pcs fuel t (p + 1) (some p) t
      else
        match star with
        | some s => globLoopFuel tcs pcs fuel (m + 1) (s + 1) (some s) (m + 1)
        | none => false
    else (pcs.drop p).all (fun c => c = '*')

/-- Function `matchGlob(text, pattern)` of lines 342–377. -/
def matchGlob (text pattern : List Char) : Bool :=
  globLoopFuel text pattern
    ((text.length + 1) * (text.length + pattern.length + 1) +
      pattern.length + 1)
    0 0 none 0

structure WordEntry where
  word : List Char
  pinyin : List Char

inductive SearchMode
  | pinyin
  | word
deriving DecidableEq

/-- Function `buildSearchMatcher` of lines 379–426. -/
def buildSearchMatcher (query : List Char) : Option (WordEntry → Bool) :=
  let normalized := normalizePattern query
  let trimmed := jsTrim normalized
  if trimmed.isEmpty then none
  else
    let lowered := trimmed.map jsToLower
    let mt : SearchMode × List Char :=
      if startsWith lowered (str "py:") then
        (.pinyin, jsTrim (trimmed.drop 3))
      else if startsWith lowered (str "word:") then
        (.word, jsTrim (trimmed.drop 5))
      else if isLikelyPinyin trimmed then (.pinyin, trimmed)
      else (.word, trimmed)
    let term := mt.2
    if term.isEmpty then none
    else
      let hasWildcard := term.any isWildcardCh
      match mt.1 with
      | .word =>
        let termLower := term.map jsToLower
        if hasWildcard = false then
          some (fun e => jsIncludes (e.word.map jsToLower) termLower)
        else some (fun e => matchGlob (e.word.map jsToLower) termLower)
      | .pinyin =>
        let normalizer :=
          match detectPinyinMode term with
          | .digits => normalizePinyinDigits
          | .marks => normalizePinyinMarks
          | .plain => normalizePinyinPlain
        let normalizedQuery := normalizer term
        if normalizedQuery.isEmpty then none
        else if hasWildcard = false then
          some (fun e => jsIncludes (normalizer e.pinyin) normalizedQuery)
        else some (fun e => matchGlob (normalizer e.pinyin) normalizedQuery)

/-- C7: The matcher built from the digit-tone query `"ma1"` normalizes
both the query and each candidate's pinyin into the numeric-tone canonical
form before substring matching — so the tone-digit query `"ma1"` and the
tone-mark spelling `"mā"` coincide and the entry matches. -/
theorem C7_digit_tone_matches_tone_mark :
    ∃ f, buildSearchMatcher (str "ma1") = some f ∧
      (∀ w p, f ⟨w, p⟩ =
        jsIncludes (normalizePinyinDigits p)
          (normalizePinyinDigits (str "ma1"))) ∧
      normalizePinyinDigits (str "ma1") = str "ma1" ∧
      normalizePinyinDigits (str "mā") = str "ma1" ∧
      (∀ w, f ⟨w, str "mā"⟩ = true) := by
  refine ⟨fun e =>
      jsIncludes (normalizePinyinDigits e.pinyin)
        (normalizePinyinDigits (str "ma1")),
    rfl, fun w p => rfl, by decide, by decide, fun w => ?_⟩
  show jsIncludes (normalizePinyinDigits (str "mā"))
      (normalizePinyinDigits (str "ma1")) = true
  decide

/-! Glob matching semantics

`globSemantics pattern text` is the specification-level matcher, written
from the claim's words rather than from the code: matching is anchored at
both ends and works over code points, `?` consumes exactly one character,
`*` consumes any run of characters including the empty run, and the whole
text must be consumed by the whole pattern. -/

def globSemantics : List Char → List Char → Bool
  | [], t => t.isEmpty
  | c :: p, t =>
    if c = '?' then
      match t with
      | [] => false
      | _ :: t2 => globSemantics p t2
    else if c = '*' then
      globSemantics p t ||
        (match t with
         | [] => false
         | _ :: t2 => globSemantics (c :: p) t2)
    else
      match t with
      | [] => false
      | c2 :: t2 => (c = c2) && globSemantics p t2
termination_by p t => (t.length, p.length)

theorem globSemantics_qmark (p t : List Char) :
    globSemantics ('?' :: p) t =
      match t with
      | [] => false
      | _ :: t2 => globSemantics p t2 := by
  rw [globSemantics.eq_def]
  simp

theorem globSemantics_star (p t : List Char) :
    globSemantics ('*' :: p) t =
      (globSemantics p t ||
        (match t with
         | [] => false
         | _ :: t2 => globSemantics ('*' :: p) t2)) := by
  rw [globSemantics.eq_def]
  simp

theorem globSemantics_lit (c : Char) (p t : List Char) (h1 : c ≠ '?')
    (h2 : c ≠ '*') :
    globSemantics (c :: p) t =
      match t with
      | [] => false
      | c2 :: t2 => (c = c2) && globSemantics p t2 := by
  rw [globSemantics.eq_def]
  simp [h1, h2]

/-- On empty text a pattern matches exactly when it is all `*`s. -/
theorem globSemantics_empty_text (q : List Char) :
    globSemantics q [] = q.all (fun c => c = '*') := by
  induction q with
  | nil => rw [globSemantics.eq_def]; rfl
  | cons c p ih =>
    by_cases h1 : c = '?'
    · subst h1
      rw [globSemantics_qmark]
      simp [List.all_cons]
    · by_cases h2 : c = '*'
      · subst h2
        rw [globSemantics_star, ih]
        simp [List.all_cons]
      · rw [globSemantics_lit c p [] h1 h2]
        simp [List.all_cons, h2]

/-- A leading `*` means: some suffix of the text matches the rest. -/
theorem globSemantics_star_iff (q t : List Char) :
    globSemantics ('*' :: q) t = true ↔
      ∃ k, globSemantics q (t.drop k) = true := by
  induction t with
  | nil =>
    rw [globSemantics_star]
    constructor
    · intro h
      simp at h
      exact ⟨0, h⟩
    · rintro ⟨k, hk⟩
      simp only [List.drop_nil] at hk
      simp [hk]
  | cons c t2 ih =>
    rw [globSemantics_star]
    constructor
    · intro h
      rcases Bool.or_eq_true_iff.mp h with h | h
      · exact ⟨0, h⟩
      · obtain ⟨k, hk⟩ := ih.mp h
        exact ⟨k + 1, by simpa using hk⟩
    · rintro ⟨k, hk⟩
      cases k with
      | zero => simp only [List.drop_zero] at hk; simp [hk]
      | succ k2 =>
        simp only [List.drop_succ_cons] at hk
        have := ih.mpr ⟨k2, hk⟩
        simp [this]

/-- Star-headed matching is monotone under passing to an earlier suffix. -/
theorem globSemantics_star_mono (q t2 t1 : List Char)
    (h : globSemantics ('*' :: q) t2 = true) (hsuf : t2 <:+ t1) :
    globSemantics ('*' :: q) t1 = true := by
  induction t1 with
  | nil =>
    have : t2 = [] := List.eq_nil_of_suffix_nil hsuf
    subst this
    exact h
  | cons c t1' ih =>
    rcases List.suffix_cons_iff.mp hsuf with rfl | hsuf2
    · exact h
    · rw [globSemantics_star]
      simp [ih hsuf2]

/-- Elementwise matching of a star-free pattern chunk against a text
segment of the same length (`?` matches any single character). -/
def chunkMatches : List Char → List Char → Bool
  | [], [] => true
  | pc :: ps, tc :: ts => (pc = '?' || pc = tc) && chunkMatches ps ts
  | _, _ => false

theorem chunkMatches_length (ch : List Char) :
    ∀ ts, chunkMatches ch ts = true → ch.length = ts.length := by
  induction ch with
  | nil => intro ts h; cases ts with
    | nil => rfl
    | cons a b => simp [chunkMatches] at h
  | cons pc ps ih =>
    intro ts h
    cases ts with
    | nil => simp [chunkMatches] at h
    | cons tc ts2 =>
      simp only [chunkMatches, Bool.and_eq_true] at h
      simp [ih ts2 h.2]

theorem chunkMatches_no_star (ch : List Char) :
    ∀ ts, chunkMatches ch ts = true → '*' ∉ ts → '*' ∉ ch := by
  induction ch with
  | nil => intro ts _ _; simp
  | cons pc ps ih =>
    intro ts h hts
    cases ts with
    | nil => simp [chunkMatches] at h
    | cons tc ts2 =>
      simp only [chunkMatches, Bool.and_eq_true, Bool.or_eq_true_iff,
        decide_eq_true_iff] at h
      intro hmem
      rcases List.mem_cons.mp hmem with rfl | hmem2
      · rcases h.1 with h1 | h1
        · exact absurd h1 (by decide)
        · exact hts (h1 ▸ List.mem_cons_self _ _)
      · exact ih ts2 h.2 (fun hm => hts (List.mem_cons_of_mem _ hm)) hmem2

theorem chunkMatches_append_one (x y : Char) (a : List Char) :
    ∀ b, a.length = b.length →
      chunkMatches (a ++ [x]) (b ++ [y]) =
        (chunkMatches a b && (x = '?' || x = y)) := by
  induction a with
  | nil =>
    intro b hb
    cases b with
    | nil => simp [chunkMatches]
    | cons u v => simp at hb
  | cons pc ps ih =>
    intro b hb
    cases b with
    | nil => simp at hb
    | cons tc ts =>
      simp only [List.cons_append, chunkMatches, List.append_eq]
      rw [ih ts (by simpa using hb)]
      simp [Bool.and_assoc]

/-- Matching a star-free chunk followed by a rest pattern splits the text
into a segment matched by the chunk and a remainder matched by the rest. -/
theorem globSemantics_chunk (ch : List Char) (hch : '*' ∉ ch) :
    ∀ (q t : List Char),
      (globSemantics (ch ++ q) t = true ↔
        ∃ t1 t2, t = t1 ++ t2 ∧ chunkMatches ch t1 = true ∧
          globSemantics q t2 = true) := by
  induction ch with
  | nil =>
    intro q t
    constructor
    · intro h
      exact ⟨[], t, rfl, rfl, by simpa using h⟩
    · rintro ⟨t1, t2, rfl, hc, hq⟩
      cases t1 with
      | nil => simpa using hq
      | cons a b => simp [chunkMatches] at hc
  | cons pc ps ih =>
    intro q t
    have hpc_star : pc ≠ '*' := fun h => hch (h ▸ List.mem_cons_self _ _)
    have hps : '*' ∉ ps := fun h => hch (List.mem_cons_of_mem _ h)
    by_cases hq : pc = '?'
    · subst hq
      rw [List.cons_append, globSemantics_qmark]
      cases t with
      | nil =>
        simp only [Bool.false_eq_true, false_iff]
        rintro ⟨t1, t2, heq, hc, -⟩
        cases t1 with
        | nil => simp [chunkMatches] at hc
        | cons a b => simp at heq
      | cons tc t2 =>
        rw [ih hps q t2]
        constructor
        · rintro ⟨t1, t2', rfl, hc, hqq⟩
          exact ⟨tc :: t1, t2', rfl, by simp [chunkMatches, hc], hqq⟩
        · rintro ⟨t1, t2', heq, hc, hqq⟩
          cases t1 with
          | nil => simp [chunkMatches] at hc
          | cons a b =>
            simp only [List.cons_append, List.cons.injEq] at heq
            obtain ⟨rfl, rfl⟩ := heq
            simp only [chunkMatches, Bool.and_eq_true] at hc
            exact ⟨b, t2', rfl, hc.2, hqq⟩
    · rw [List.cons_append, globSemantics_lit pc (ps ++ q) t hq hpc_star]
      cases t with
      | nil =>
        simp only [Bool.false_eq_true, false_iff]
        rintro ⟨t1, t2, heq, hc, -⟩
        cases t1 with
        | nil => simp [chunkMatches] at hc
        | cons a b => simp at heq
      | cons tc t2 =>
        simp only [Bool.and_eq_true, decide_eq_true_iff]
        constructor
        · rintro ⟨rfl, h⟩
          obtain ⟨t1, t2', rfl, hc, hqq⟩ := (ih hps q t2).mp h
          exact ⟨pc :: t1, t2', rfl, by simp [chunkMatches, hc], hqq⟩
        · rintro ⟨t1, t2', heq, hc, hqq⟩
          cases t1 with
          | nil => simp [chunkMatches] at hc
          | cons a b =>
            simp only [List.cons_append, List.cons.injEq] at heq
            obtain ⟨rfl, rfl⟩ := heq
            simp only [chunkMatches, Bool.and_eq_true, Bool.or_eq_true_iff,
              decide_eq_true_iff] at hc
            rcases hc.1 with h1 | h1
            · exact absurd h1 hq
            · exact ⟨h1, (ih hps q (b ++ t2')).mpr ⟨b, t2', rfl, hc.2, hqq⟩⟩

/-- Specification value of a loop state: the rest of the pattern must match
the rest of the text, or — when a star is recorded — the pattern from the
star must match the text from one past the backtrack position. -/
def globEspec (tcs pcs : List Char) (t p : Nat) (star : Option Nat)
    (m : Nat) : Bool :=
  globSemantics (pcs.drop p) (tcs.drop t) ||
    (match star with
     | none => false
     | some s => globSemantics (pcs.drop s) (tcs.drop (m + 1)))

/-- Reachability invariant of the loop: indices in range, and when a star
is recorded at `s` with backtrack position `m`, the pattern consumed since
the star (`pcs[s+1..p)`) matches the text consumed since the backtrack
position (`tcs[m..t)`) character by character. -/
def globInv (tcs pcs : List Char) (t p : Nat) (star : Option Nat)
    (m : Nat) : Prop :=
  t ≤ tcs.length ∧ p ≤ pcs.length ∧ m ≤ t ∧
    ∀ s, star = some s →
      s < p ∧ pcs.getD s ' ' = '*' ∧ m ≤ t ∧ p - (s + 1) = t - m ∧
      chunkMatches ((pcs.drop (s + 1)).take (p - (s + 1)))
        ((tcs.drop m).take (t - m)) = true

theorem drop_s_eq_star_cons (pcs : List Char) (s p : Nat) (hsp : s < p)
    (hpP : p ≤ pcs.length) (hstar_s : pcs.getD s ' ' = '*') :
    pcs.drop s = '*' :: pcs.drop (s + 1) := by
  have hs : s < pcs.length := by omega
  rw [List.drop_eq_getElem_cons hs]
  rw [List.getD_eq_getElem pcs ' ' hs] at hstar_s
  rw [hstar_s]

theorem drop_succ_chunk (pcs : List Char) (s p : Nat) (hsp : s < p) :
    pcs.drop (s + 1) =
      (pcs.drop (s + 1)).take (p - (s + 1)) ++ pcs.drop p := by
  have h1 : (pcs.drop (s + 1)).drop (p - (s + 1)) = pcs.drop p := by
    rw [List.drop_drop]
    congr 1
    omega
  conv_lhs => rw [← List.take_append_drop (p - (s + 1)) (pcs.drop (s + 1))]
  rw [h1]

/-- Unfolding the star alternative: if the pattern from the recorded star
matches the text from `m + 1`, the pattern from `p` matches the text from
some position at least `t + 1`, with the intervening chunk re-matched. -/
theorem globAlt_decompose (tcs pcs : List Char) (s p t m : Nat)
    (hsp : s < p) (hpP : p ≤ pcs.length) (hstar_s : pcs.getD s ' ' = '*')
    (hmt : m ≤ t) (htN : t ≤ tcs.length)
    (hlen : p - (s + 1) = t - m)
    (hchunk : chunkMatches ((pcs.drop (s + 1)).take (p - (s + 1)))
      ((tcs.drop m).take (t - m)) = true)
    (hnostar : '*' ∉ tcs)
    (halt : globSemantics (pcs.drop s) (tcs.drop (m + 1)) = true) :
    ∃ k, globSemantics (pcs.drop p) (tcs.drop (m + 1 + k + (t - m))) = true ∧
      t - m ≤ tcs.length - (m + 1 + k) := by
  set chunk := (pcs.drop (s + 1)).take (p - (s + 1)) with hchunkdef
  have htext_nostar : '*' ∉ (tcs.drop m).take (t - m) := by
    intro hmem
    exact hnostar (List.mem_of_mem_drop (List.mem_of_mem_take hmem))
  have hch_nostar : '*' ∉ chunk :=
    chunkMatches_no_star chunk _ hchunk htext_nostar
  have hchunk_len : chunk.length = t - m := by
    rw [chunkMatches_length chunk _ hchunk]
    simp only [List.length_take, List.length_drop]
    omega
  rw [drop_s_eq_star_cons pcs s p hsp hpP hstar_s,
    drop_succ_chunk pcs s p hsp, ← hchunkdef] at halt
  obtain ⟨k, hk⟩ := (globSemantics_star_iff _ _).mp halt
  rw [List.drop_drop] at hk
  obtain ⟨t1, t2, heq, hc1, hc2⟩ :=
    (globSemantics_chunk chunk hch_nostar (pcs.drop p) _).mp hk
  have ht1_len : t1.length = t - m := by
    rw [← chunkMatches_length chunk t1 hc1, hchunk_len]
  have ht2 : t2 = tcs.drop (m + 1 + k + (t - m)) := by
    have : (t1 ++ t2).drop t1.length = t2 := List.drop_left t1 t2
    rw [← heq] at this
    rw [← this, List.drop_drop, ht1_len]
  refine ⟨k, by rwa [← ht2], ?_⟩
  have hlen2 : (tcs.drop (m + 1 + k)).length = t1.length + t2.length := by
    rw [heq, List.length_append]
  simp only [List.length_drop] at hlen2
  omega

/-- At loop exit (`t ≥ textChars.length`) the specification value of the
state is exactly the JS epilogue: all remaining pattern characters are
`*`. -/
theorem globEspec_exit (tcs pcs : List Char) (t p : Nat) (star : Option Nat)
    (m : Nat) (hnostar : '*' ∉ tcs)
    (hinv : globInv tcs pcs t p star m) (ht : tcs.length ≤ t) :
    globEspec tcs pcs t p star m =
      (pcs.drop p).all (fun c => c = '*') := by
  obtain ⟨htN, hpP, hmt0, hstarinv⟩ := hinv
  have htdrop : tcs.drop t = [] := List.drop_eq_nil_of_le ht
  simp only [globEspec, htdrop, globSemantics_empty_text]
  cases star with
  | none => simp
  | some s =>
    obtain ⟨hsp, hstar_s, hmt, hlen, hchunk⟩ := hstarinv s rfl
    by_cases halt : globSemantics (pcs.drop s) (tcs.drop (m + 1)) = true
    · obtain ⟨k, hk, hklen⟩ := globAlt_decompose tcs pcs s p t m hsp hpP
        hstar_s hmt htN hlen hchunk hnostar halt
      by_cases hzero : t - m = 0
      · have hm : m = t := by omega
        have hnil : tcs.drop (m + 1 + k + (t - m)) = [] :=
          List.drop_eq_nil_of_le (by omega)
        rw [hnil, globSemantics_empty_text] at hk
        simp [halt, hk]
      · exfalso
        omega
    · have halt2 : globSemantics (pcs.drop s) (tcs.drop (m + 1)) = false :=
        Bool.not_eq_true _ ▸ Bool.of_not_eq_true halt
      simp [halt2]

theorem globSemantics_nil_pattern (t : List Char) :
    globSemantics [] t = t.isEmpty := by
  rw [globSemantics.eq_def]

theorem globSemantics_star_cons (q : List Char) (c : Char) (ts : List Char) :
    globSemantics ('*' :: q) (c :: ts) =
      (globSemantics q (c :: ts) || globSemantics ('*' :: q) ts) := by
  rw [globSemantics_star]

theorem globSemantics_star_nil (q : List Char) :
    globSemantics ('*' :: q) [] = globSemantics q [] := by
  rw [globSemantics_star]
  simp

/-- Discarding an older recorded star in favour of a new star at `p` loses
no matches: if the pattern from the old star matches the text from its
backtrack position, then the pattern from `p` (which begins with `*`)
matches the text from `t + 1`. -/
theorem glob_subsume (tcs pcs : List Char) (s p t m : Nat)
    (hsp : s < p) (hpP : p ≤ pcs.length) (hstar_s : pcs.getD s ' ' = '*')
    (hmt : m ≤ t) (htN : t ≤ tcs.length)
    (hlen : p - (s + 1) = t - m)
    (hchunk : chunkMatches ((pcs.drop (s + 1)).take (p - (s + 1)))
      ((tcs.drop m).take (t - m)) = true)
    (hnostar : '*' ∉ tcs)
    (hpP2 : p < pcs.length) (hstar_p : pcs.getD p ' ' = '*')
    (halt : globSemantics (pcs.drop s) (tcs.drop (m + 1)) = true) :
    globSemantics (pcs.drop p) (tcs.drop (t + 1)) = true := by
  obtain ⟨k, hk, -⟩ := globAlt_decompose tcs pcs s p t m hsp hpP hstar_s
    hmt htN hlen hchunk hnostar halt
  have harith : m + 1 + k + (t - m) = t + 1 + k := by omega
  rw [harith] at hk
  have hdp : pcs.drop p = '*' :: pcs.drop (p + 1) :=
    drop_s_eq_star_cons pcs p (p + 1) (by omega) (by omega) hstar_p
  rw [hdp] at hk ⊢
  apply globSemantics_star_mono _ _ _ hk
  have : tcs.drop (t + 1 + k) = (tcs.drop (t + 1)).drop k := by
    rw [List.drop_drop]
  rw [this]
  exact List.drop_suffix k _

theorem drop_eq_getD_cons (l : List Char) (n : Nat) (h : n < l.length) :
    l.drop n = l.getD n ' ' :: l.drop (n + 1) := by
  rw [List.drop_eq_getElem_cons h, List.getD_eq_getElem l ' ' h]

theorem globLoopFuel_succ (tcs pcs : List Char) (f t p m : Nat)
    (star : Option Nat) :
    globLoopFuel tcs pcs (f + 1) t p star m =
      (if t < tcs.length then
        if p < pcs.length ∧
            (pcs.getD p ' ' = '?' ∨ pcs.getD p ' ' = tcs.getD t ' ') then
          globLoopFuel tcs pcs f (t + 1) (p + 1) star m
        else if p < pcs.length ∧ pcs.getD p ' ' = '*' then
          globLoopFuel tcs pcs f t (p + 1) (some p) t
        else
          match star with
          | some s => globLoopFuel tcs pcs f (m + 1) (s + 1) (some s) (m + 1)
          | none => false
      else (pcs.drop p).all (fun c => c = '*')) := rfl

/-- Main loop invariant: with enough fuel, `globLoopFuel` computes the
specification value of its state (for text without literal `*`). -/
theorem globLoopFuel_correct (tcs pcs : List Char) (hnostar : '*' ∉ tcs) :
    ∀ fuel t p star m,
      globInv tcs pcs t p star m →
      (tcs.length - m) * (tcs.length + pcs.length + 1) +
        (tcs.length - t) + (pcs.length - p) + 1 ≤ fuel →
      globLoopFuel tcs pcs fuel t p star m =
        globEspec tcs pcs t p star m := by
  intro fuel
  induction fuel with
  | zero => intro t p star m _ hfuel; omega
  | succ f ih =>
    intro t p star m hinv hfuel
    obtain ⟨htN, hpP, hmt0, hstarinv⟩ := hinv
    rw [globLoopFuel_succ]
    by_cases ht : t < tcs.length
    · rw [if_pos ht]
      by_cases hb1 : p < pcs.length ∧
          (pcs.getD p ' ' = '?' ∨ pcs.getD p ' ' = tcs.getD t ' ')
      · -- character-consuming branch
        rw [if_pos hb1]
        have hdropP : pcs.drop p = pcs.getD p ' ' :: pcs.drop (p + 1) :=
          drop_eq_getD_cons pcs p hb1.1
        have hdropT : tcs.drop t = tcs.getD t ' ' :: tcs.drop (t + 1) :=
          drop_eq_getD_cons tcs t ht
        have htc_nostar : tcs.getD t ' ' ≠ '*' := by
          rw [List.getD_eq_getElem _ _ ht]
          intro hx
          exact hnostar (hx ▸ List.getElem_mem ht)
        have hfirst : globSemantics (pcs.drop p) (tcs.drop t) =
            globSemantics (pcs.drop (p + 1)) (tcs.drop (t + 1)) := by
          rw [hdropP, hdropT]
          rcases hb1.2 with hq | heq
          · rw [hq, globSemantics_qmark]
          · by_cases hq2 : pcs.getD p ' ' = '?'
            · rw [hq2, globSemantics_qmark]
            · rw [globSemantics_lit _ _ _ hq2 (by rw [heq]; exact htc_nostar)]
              show (decide (pcs.getD p ' ' = tcs.getD t ' ') &&
                globSemantics (pcs.drop (p + 1)) (tcs.drop (t + 1))) =
                globSemantics (pcs.drop (p + 1)) (tcs.drop (t + 1))
              rw [heq]
              simp
        have hinv2 : globInv tcs pcs (t + 1) (p + 1) star m := by
          refine ⟨by omega, by omega, by omega, ?_⟩
          intro s hs
          obtain ⟨hsp, hstar_s, hmt, hlen, hchunk⟩ := hstarinv s hs
          refine ⟨by omega, hstar_s, by omega, by omega, ?_⟩
          have htake_p : (pcs.drop (s + 1)).take (p + 1 - (s + 1)) =
              (pcs.drop (s + 1)).take (p - (s + 1)) ++ [pcs.getD p ' '] := by
            rw [show p + 1 - (s + 1) = (p - (s + 1)) + 1 from by omega,
              List.take_succ]
            have hidx : (pcs.drop (s + 1))[p - (s + 1)]? =
                some (pcs.getD p ' ') := by
              rw [List.getElem?_drop,
                show s + 1 + (p - (s + 1)) = p from by omega,
                List.getD_eq_getElem pcs ' ' hb1.1]
              exact List.getElem?_eq_getElem hb1.1
            rw [hidx]
            rfl
          have htake_t : (tcs.drop m).take (t + 1 - m) =
              (tcs.drop m).take (t - m) ++ [tcs.getD t ' '] := by
            rw [show t + 1 - m = (t - m) + 1 from by omega, List.take_succ]
            have hidx : (tcs.drop m)[t - m]? = some (tcs.getD t ' ') := by
              rw [List.getElem?_drop, show m + (t - m) = t from by omega,
                List.getD_eq_getElem tcs ' ' ht]
              exact List.getElem?_eq_getElem ht
            rw [hidx]
            rfl
          rw [htake_p, htake_t, chunkMatches_append_one _ _ _ _ (by
            rw [chunkMatches_length _ _ hchunk])]
          rw [hchunk]
          rcases hb1.2 with hq | heq
          · rw [hq]
            simp
          · rw [heq]
            simp
        rw [ih (t + 1) (p + 1) star m hinv2 (by
          have h1 : tcs.length - t = tcs.length - (t + 1) + 1 := by omega
          have h2 : pcs.length - p = pcs.length - (p + 1) + 1 := by
            have := hb1.1
            omega
          rw [h1, h2] at hfuel
          omega)]
        simp only [globEspec, hfirst]
      · rw [if_neg hb1]
        by_cases hb2 : p < pcs.length ∧ pcs.getD p ' ' = '*'
        · -- star branch
          rw [if_pos hb2]
          have hdropP : pcs.drop p = '*' :: pcs.drop (p + 1) :=
            drop_s_eq_star_cons pcs p (p + 1) (by omega) (by omega) hb2.2
          have hdropT : tcs.drop t = tcs.getD t ' ' :: tcs.drop (t + 1) :=
            drop_eq_getD_cons tcs t ht
          have hsplit : globSemantics (pcs.drop p) (tcs.drop t) =
              (globSemantics (pcs.drop (p + 1)) (tcs.drop t) ||
                globSemantics (pcs.drop p) (tcs.drop (t + 1))) := by
            conv_lhs => rw [hdropP, hdropT]
            rw [globSemantics_star_cons]
            rw [← hdropT, ← hdropP]
          have hinv2 : globInv tcs pcs t (p + 1) (some p) t := by
            refine ⟨htN, by omega, le_refl t, ?_⟩
            intro s hs
            injection hs with hs
            subst hs
            refine ⟨by omega, hb2.2, le_refl t, by omega, ?_⟩
            simp [chunkMatches]
          have hfuel2 : (tcs.length - t) * (tcs.length + pcs.length + 1) +
              (tcs.length - t) + (pcs.length - (p + 1)) + 1 ≤ f := by
            have hBA : (tcs.length - t) * (tcs.length + pcs.length + 1) ≤
                (tcs.length - m) * (tcs.length + pcs.length + 1) := by
              apply Nat.mul_le_mul_right
              cases star with
              | none => omega
              | some s0 =>
                have := (hstarinv s0 rfl).2.2.1
                omega
            have hp2 : p < pcs.length := hb2.1
            generalize (tcs.length - m) *
              (tcs.length + pcs.length + 1) = A at hfuel hBA
            generalize (tcs.length - t) *
              (tcs.length + pcs.length + 1) = B at hBA ⊢
            omega
          rw [ih t (p + 1) (some p) t hinv2 hfuel2]
          cases star with
          | none =>
            simp only [globEspec, hsplit]
            simp
          | some s =>
            obtain ⟨hsp, hstar_s, hmt, hlen, hchunk⟩ := hstarinv s rfl
            by_cases halt : globSemantics (pcs.drop s) (tcs.drop (m + 1)) =
                true
            · have hsub := glob_subsume tcs pcs s p t m hsp hpP hstar_s hmt
                htN hlen hchunk hnostar hb2.1 hb2.2 halt
              simp only [globEspec, halt, hsub]
              simp
            · have halt2 : globSemantics (pcs.drop s) (tcs.drop (m + 1)) =
                  false := Bool.of_not_eq_true halt
              simp only [globEspec, halt2, hsplit]
              simp
        · rw [if_neg hb2]
          -- mismatch: backtrack or fail
          have hdropT : tcs.drop t = tcs.getD t ' ' :: tcs.drop (t + 1) :=
            drop_eq_getD_cons tcs t ht
          have hfb : globSemantics (pcs.drop p) (tcs.drop t) = false := by
            by_cases hpP2 : p < pcs.length
            · have hdropP : pcs.drop p = pcs.getD p ' ' :: pcs.drop (p + 1) :=
                drop_eq_getD_cons pcs p hpP2
              have hq : pcs.getD p ' ' ≠ '?' := fun hx =>
                hb1 ⟨hpP2, Or.inl hx⟩
              have hst : pcs.getD p ' ' ≠ '*' := fun hx => hb2 ⟨hpP2, hx⟩
              have hne : pcs.getD p ' ' ≠ tcs.getD t ' ' := fun hx =>
                hb1 ⟨hpP2, Or.inr hx⟩
              rw [hdropP, hdropT, globSemantics_lit _ _ _ hq hst]
              show (decide (pcs.getD p ' ' = tcs.getD t ' ') &&
                globSemantics (pcs.drop (p + 1)) (tcs.drop (t + 1))) = false
              rw [decide_eq_false hne]
              simp
            · have hnil : pcs.drop p = [] :=
                List.drop_eq_nil_of_le (by omega)
              rw [hnil, hdropT, globSemantics_nil_pattern]
              rfl
          cases star with
          | none =>
            simp only [globEspec, hfb]
            rfl
          | some s =>
            obtain ⟨hsp, hstar_s, hmt, hlen, hchunk⟩ := hstarinv s rfl
            have hinv2 : globInv tcs pcs (m + 1) (s + 1) (some s)
                (m + 1) := by
              refine ⟨by omega, by omega, le_refl _, ?_⟩
              intro s2 hs2
              injection hs2 with hs2
              subst hs2
              refine ⟨by omega, hstar_s, le_refl _, by omega, ?_⟩
              simp [chunkMatches]
            have hfuel2 : (tcs.length - (m + 1)) *
                (tcs.length + pcs.length + 1) +
                (tcs.length - (m + 1)) + (pcs.length - (s + 1)) + 1 ≤ f := by
              have hAC : (tcs.length - m) * (tcs.length + pcs.length + 1) =
                  (tcs.length - (m + 1)) * (tcs.length + pcs.length + 1) +
                    (tcs.length + pcs.length + 1) := by
                rw [show tcs.length - m = (tcs.length - (m + 1)) + 1 from by
                  omega, Nat.succ_mul]
              rw [hAC] at hfuel
              generalize (tcs.length - (m + 1)) *
                (tcs.length + pcs.length + 1) = C at hfuel ⊢
              omega
            show globLoopFuel tcs pcs f (m + 1) (s + 1) (some s) (m + 1) =
              globEspec tcs pcs t p (some s) m
            rw [ih (m + 1) (s + 1) (some s) (m + 1) hinv2 hfuel2]
            have hdropS : pcs.drop s = '*' :: pcs.drop (s + 1) :=
              drop_s_eq_star_cons pcs s p hsp hpP hstar_s
            have halt_eq : globSemantics (pcs.drop s) (tcs.drop (m + 1)) =
                (globSemantics (pcs.drop (s + 1)) (tcs.drop (m + 1)) ||
                  globSemantics (pcs.drop s) (tcs.drop (m + 2))) := by
              by_cases hmN : m + 1 < tcs.length
              · have hdropM : tcs.drop (m + 1) =
                    tcs.getD (m + 1) ' ' :: tcs.drop (m + 2) :=
                  drop_eq_getD_cons tcs (m + 1) hmN
                conv_lhs => rw [hdropS, hdropM]
                rw [globSemantics_star_cons]
                rw [← hdropM, ← hdropS]
              · have h1 : tcs.drop (m + 1) = [] :=
                  List.drop_eq_nil_of_le (by omega)
                have h2 : tcs.drop (m + 2) = [] :=
                  List.drop_eq_nil_of_le (by omega)
                rw [h1, h2, hdropS, globSemantics_star_nil]
                simp
            simp only [globEspec, hfb, halt_eq]
            simp
    · rw [if_neg ht]
      exact (globEspec_exit tcs pcs t p star m hnostar
        ⟨htN, hpP, hmt0, hstarinv⟩ (by omega)).symm

/-- C8 (counterexample): As stated, the claim fails on texts containing
a literal `*`: in `matchGlob` the character-equality branch takes
precedence over the star branch, so a pattern `*` is consumed as a literal
when the current text character is `*`.  The pattern `"*"` — which under
glob semantics matches every text — fails to match the text `"*a"`. -/
theorem C8_matchGlob_counterexample :
    matchGlob (str "*a") (str "*") = false ∧
      globSemantics (str "*") (str "*a") = true := by
  constructor
  · decide
  · apply (globSemantics_star_iff [] (str "*a")).mpr
    refine ⟨2, ?_⟩
    rw [globSemantics_nil_pattern]
    rfl

/-- C8 (amended): For every text containing no literal `*` character,
`matchGlob` agrees with anchored glob semantics over Unicode code points:
`*` matches any run of characters including the empty run, `?` matches
exactly one character, and the whole text must be consumed by the whole
pattern.  In particular pattern `"*儿"` matches `"花儿"` and does not
match `"儿童"`. -/
theorem C8_matchGlob_semantics (text pattern : List Char)
    (h : '*' ∉ text) :
    matchGlob text pattern = globSemantics pattern text ∧
    matchGlob (str "花儿") (str "*儿") = true ∧
    matchGlob (str "儿童") (str "*儿") = false := by
  refine ⟨?_, by decide, by decide⟩
  show globLoopFuel text pattern
      ((text.length + 1) * (text.length + pattern.length + 1) +
        pattern.length + 1) 0 0 none 0 = globSemantics pattern text
  rw [globLoopFuel_correct text pattern h _ 0 0 none 0
    ⟨Nat.zero_le _, Nat.zero_le _, le_refl 0, fun s hs => by cases hs⟩
    (by
      have hK : (text.length + 1) * (text.length + pattern.length + 1) =
          text.length * (text.length + pattern.length + 1) +
            (text.length + pattern.length + 1) := by
        rw [Nat.succ_mul]
      rw [hK]
      simp only [Nat.sub_zero]
      omega)]
  simp [globEspec]

/-- Closed instance of `C8_matchGlob_semantics`: the text `"花儿"` has no
literal `*`, and the algorithm agrees with the glob semantics on the
example pattern. -/
theorem C8_matchGlob_semantics_witness :
    matchGlob (str "花儿") (str "*儿") =
      globSemantics (str "*儿") (str "花儿") ∧
    matchGlob (str "花儿") (str "*儿") = true :=
  ⟨(C8_matchGlob_semantics (str "花儿") (str "*儿") (by decide)).1,
   (C8_matchGlob_semantics (str "花儿") (str "*儿") (by decide)).2.1⟩
